import Mathlib

/-!
Verification of the outline-tree engine of the JaRoet-Outliner repository.

The engine operates on a forest of items ("bullets").  Each structural
mutator receives the current forest and returns a new one; the source
implements them either as pure recursive rebuilds or as
clone-locate-splice sequences (structuredClone + findBulletAndParent +
Array.splice), both of which rewrite the sibling list containing the
first pre-order (DFS) occurrence of the target identifier.  The shallow
embedding below models bullets as a nested inductive type, JS string
identifiers as naturals, Date.now() as an explicit numeric argument, and
crypto.randomUUID() as a supply of fresh numeric identifiers.
-/

/-- One item of the outline, mirroring the Bullet interface of the source
(id, text, children, isCollapsed, isReadOnly, createdAt, updatedAt).
A missing optional boolean field of the source is modelled as false, a
missing optional timestamp as none. -/
inductive Bullet : Type where
  | mk (id : Nat) (text : String) (children : List Bullet)
       (isCollapsed : Bool) (isReadOnly : Bool)
       (createdAt updatedAt : Option Nat) : Bullet

def Bullet.id : Bullet → Nat
  | .mk i _ _ _ _ _ _ => i

def Bullet.text : Bullet → String
  | .mk _ t _ _ _ _ _ => t

def Bullet.children : Bullet → List Bullet
  | .mk _ _ c _ _ _ _ => c

def Bullet.isCollapsed : Bullet → Bool
  | .mk _ _ _ c _ _ _ => c

def Bullet.isReadOnly : Bullet → Bool
  | .mk _ _ _ _ r _ _ => r

def Bullet.createdAt : Bullet → Option Nat
  | .mk _ _ _ _ _ ca _ => ca

def Bullet.updatedAt : Bullet → Option Nat
  | .mk _ _ _ _ _ _ ua => ua

/-- Replace the children list of a bullet, keeping every other field. -/
def setChildren : Bullet → List Bullet → Bullet
  | .mk i t _ c r ca ua, cs => .mk i t cs c r ca ua

/-- Conditionally refresh the updatedAt field (used for the
"found.parent.updatedAt = Date.now()" statements of the source). -/
def touchNode (b : Bool) (now : Nat) : Bullet → Bullet
  | .mk i t cs c r ca ua => .mk i t cs c r ca (if b then some now else ua)

mutual

def Bullet.beq : Bullet → Bullet → Bool
  | .mk i t c cl r ca ua, .mk i' t' c' cl' r' ca' ua' =>
      i == i' && t == t' && Bullet.beqList c c' && cl == cl' && r == r' &&
      ca == ca' && ua == ua'

def Bullet.beqList : List Bullet → List Bullet → Bool
  | [], [] => true
  | a :: as, b :: bs => Bullet.beq a b && Bullet.beqList as bs
  | _, _ => false

end

mutual

theorem Bullet.beq_iff : ∀ a b : Bullet, Bullet.beq a b = true ↔ a = b
  | .mk i t c cl r ca ua, .mk i' t' c' cl' r' ca' ua' => by
      simp only [Bullet.beq, Bullet.mk.injEq, Bool.and_eq_true, beq_iff_eq]
      rw [Bullet.beqList_iff c c']
      tauto

theorem Bullet.beqList_iff : ∀ a b : List Bullet, Bullet.beqList a b = true ↔ a = b
  | [], [] => by simp [Bullet.beqList]
  | [], _ :: _ => by simp [Bullet.beqList]
  | _ :: _, [] => by simp [Bullet.beqList]
  | a :: as, b :: bs => by
      simp only [Bullet.beqList, Bool.and_eq_true, List.cons.injEq]
      rw [Bullet.beq_iff a b, Bullet.beqList_iff as bs]

end

instance : DecidableEq Bullet := fun a b =>
  decidable_of_iff (Bullet.beq a b = true) (Bullet.beq_iff a b)

mutual

/-- All nodes of the subtree rooted at one bullet, in pre-order. -/
def bulletNodes : Bullet → List Bullet
  | .mk i t cs c r ca ua => .mk i t cs c r ca ua :: forestNodes cs

/-- All nodes of a forest, in pre-order (depth-first). -/
def forestNodes : List Bullet → List Bullet
  | [] => []
  | b :: rest => bulletNodes b ++ forestNodes rest

end

/-- All identifiers occurring anywhere in a forest. -/
def forestIds (l : List Bullet) : List Nat :=
  (forestNodes l).map Bullet.id

theorem forestNodes_append (a b : List Bullet) :
    forestNodes (a ++ b) = forestNodes a ++ forestNodes b := by
  induction a with
  | nil => rfl
  | cons x xs ih => simp [forestNodes, ih]

theorem forestIds_append (a b : List Bullet) :
    forestIds (a ++ b) = forestIds a ++ forestIds b := by
  simp [forestIds, forestNodes_append]

theorem self_mem_bulletNodes (b : Bullet) : b ∈ bulletNodes b := by
  cases b with
  | mk i t cs c r ca ua => simp [bulletNodes]

theorem mem_forestNodes_of_root {l : List Bullet} {b : Bullet} (h : b ∈ l) :
    b ∈ forestNodes l := by
  induction l with
  | nil => cases h
  | cons x xs ih =>
      rcases List.mem_cons.mp h with h | h
      · subst h; simp [forestNodes, self_mem_bulletNodes]
      · simp only [forestNodes, List.mem_append]; exact Or.inr (ih h)

theorem children_sub_bulletNodes (b : Bullet) {c : Bullet}
    (h : c ∈ b.children) : c ∈ bulletNodes b := by
  cases b with
  | mk i t cs cl r ca ua =>
      simp only [bulletNodes, Bullet.children] at *
      exact List.mem_cons_of_mem _ (mem_forestNodes_of_root h)

mutual

theorem bulletNodes_trans : ∀ (b m : Bullet), m ∈ bulletNodes b →
    ∀ c ∈ bulletNodes m, c ∈ bulletNodes b
  | .mk i t cs cl r ca ua, m, hm, c, hc => by
      simp only [bulletNodes] at hm ⊢
      rcases List.mem_cons.mp hm with hm | hm
      · subst hm; simpa [bulletNodes] using hc
      · exact List.mem_cons_of_mem _ (forestNodes_trans cs m hm c hc)

theorem forestNodes_trans : ∀ (l : List Bullet) (m : Bullet), m ∈ forestNodes l →
    ∀ c ∈ bulletNodes m, c ∈ forestNodes l
  | b :: rest, m, hm, c, hc => by
      simp only [forestNodes, List.mem_append] at hm ⊢
      rcases hm with hm | hm
      · exact Or.inl (bulletNodes_trans b m hm c hc)
      · exact Or.inr (forestNodes_trans rest m hm c hc)

end

/-- Nodes of a forest are closed under taking direct children. -/
theorem children_mem_forestNodes {l : List Bullet} {m c : Bullet}
    (hm : m ∈ forestNodes l) (hc : c ∈ m.children) : c ∈ forestNodes l :=
  forestNodes_trans l m hm c (children_sub_bulletNodes m hc)

/-!  One-hole contexts over forests.  A context designates one sibling
list somewhere in a forest; plugging a list into the hole rebuilds the
forest.  They let the theorems below quantify over an arbitrary position
of an item inside an arbitrary tree. -/

/-- A one-hole context: the hole is either this very sibling list, or
sits inside the children of one designated node of the list. -/
inductive Ctx : Type where
  | here : Ctx
  | deeper (pre : List Bullet) (node : Bullet) (c : Ctx) (post : List Bullet) : Ctx

def Ctx.isHere : Ctx → Bool
  | .here => true
  | .deeper _ _ _ _ => false

/-- Plug a sibling list into the hole.  When touch is set, the node
immediately enclosing the hole gets its updatedAt refreshed to now,
matching the "found.parent.updatedAt = Date.now()" statements of the
source mutators. -/
def plugP (touch : Bool) (now : Nat) : Ctx → List Bullet → List Bullet
  | .here, l => l
  | .deeper pre n c post, l =>
      pre ++ touchNode (touch && c.isHere) now (setChildren n (plugP touch now c l)) :: post

/-- Plugging without any timestamp side effect. -/
def plug (c : Ctx) (l : List Bullet) : List Bullet := plugP false 0 c l

theorem plug_here (l : List Bullet) : plug .here l = l := rfl

theorem plug_deeper (pre : List Bullet) (n : Bullet) (c : Ctx) (post : List Bullet)
    (l : List Bullet) :
    plug (.deeper pre n c post) l = pre ++ setChildren n (plug c l) :: post := by
  simp [plug, plugP, touchNode]
  cases setChildren n (plugP false 0 c l) with
  | mk i t cs cl r ca ua => cases (false && c.isHere) <;> simp [touchNode]

/-- Composition of contexts: the hole of the first is filled with the
(plugged) second. -/
def Ctx.comp : Ctx → Ctx → Ctx
  | .here, d => d
  | .deeper pre n c post, d => .deeper pre n (Ctx.comp c d) post

theorem touchNode_false (now : Nat) (b : Bullet) : touchNode false now b = b := by
  cases b with
  | mk i t cs c r ca ua => simp [touchNode]

theorem plug_comp (c d : Ctx) (l : List Bullet) :
    plug (c.comp d) l = plug c (plug d l) := by
  induction c with
  | here => rfl
  | deeper pre n c' post ih =>
      simp [Ctx.comp, plug, plugP, touchNode_false] at ih ⊢
      rw [ih]

/-- The node enclosing the hole (as it appears in the plugged forest),
if any; this is the parent that findBulletAndParent reports for an item
stored at the front of the hole. -/
def holeParent : Ctx → List Bullet → Option Bullet
  | .here, _ => none
  | .deeper _ n c _, l =>
      match c with
      | .here => some (setChildren n l)
      | .deeper p' n' c' q' => holeParent (.deeper p' n' c' q') l

/-- Root identifiers of a plugged forest are root identifiers of the
context parts, or of the plugged list when the hole is at the top. -/
theorem plug_roots (c : Ctx) (l : List Bullet) :
    (plug c l).map Bullet.id =
      match c with
      | .here => l.map Bullet.id
      | .deeper pre n _ post => (pre.map Bullet.id) ++ n.id :: (post.map Bullet.id) := by
  cases c with
  | here => rfl
  | deeper pre n c' post =>
      cases n with
      | mk i t cs cl r ca ua => simp [plug_deeper, setChildren, Bullet.id]

/-- All identifiers in the subtree of one bullet. -/
def bulletIds (b : Bullet) : List Nat := (bulletNodes b).map Bullet.id

theorem forestIds_cons (b : Bullet) (rest : List Bullet) :
    forestIds (b :: rest) = bulletIds b ++ forestIds rest := by
  have : forestNodes (b :: rest) = bulletNodes b ++ forestNodes rest := by
    cases rest <;> simp [forestNodes]
  simp [forestIds, bulletIds, this]

theorem id_mem_bulletIds (b : Bullet) : b.id ∈ bulletIds b := by
  cases b with
  | mk i t cs c r ca ua => simp [bulletIds, bulletNodes, Bullet.id]

theorem forestIds_sub_cons (b : Bullet) (rest : List Bullet) {tid : Nat}
    (h : tid ∉ forestIds (b :: rest)) : tid ∉ bulletIds b ∧ tid ∉ forestIds rest := by
  rw [forestIds_cons] at h
  simp only [List.mem_append] at h
  tauto

theorem id_ne_of_not_mem_bulletIds {b : Bullet} {tid : Nat}
    (h : tid ∉ bulletIds b) : b.id ≠ tid := by
  intro he
  exact h (he ▸ id_mem_bulletIds b)

theorem children_ids_of_not_mem_bulletIds {b : Bullet} {tid : Nat}
    (h : tid ∉ bulletIds b) : tid ∉ forestIds b.children := by
  cases b with
  | mk i t cs c r ca ua =>
      simp only [bulletIds, bulletNodes, Bullet.children, List.map_cons, List.mem_cons] at h ⊢
      intro hc
      exact h (Or.inr hc)

/-- The result record of findBulletAndParent: the located node, its
parent (none for a root), the sibling list it lives in and its index. -/
structure Found : Type where
  node : Bullet
  parent : Option Bullet
  siblings : List Bullet
  index : Nat

theorem Found.ext_iff (a b : Found) :
    a = b ↔ a.node = b.node ∧ a.parent = b.parent ∧ a.siblings = b.siblings ∧
      a.index = b.index := by
  cases a; cases b; simp

mutual

/-- Loop of findBulletAndParent over one sibling list: check each node,
then recurse into its children, then move on; full and i track the
sibling list and position for the returned record. -/
def fbapGo (tid : Nat) (parent : Option Bullet) (full : List Bullet) (i : Nat) :
    List Bullet → Option Found
  | [] => none
  | n :: rest =>
      if n.id = tid then some ⟨n, parent, full, i⟩
      else
        match fbapInto tid n with
        | some f => some f
        | none => fbapGo tid parent full (i + 1) rest

/-- Recursive step of findBulletAndParent into one node's children. -/
def fbapInto (tid : Nat) : Bullet → Option Found
  | .mk i t cs c r ca ua => fbapGo tid (some (.mk i t cs c r ca ua)) cs 0 cs

end

/-- findBulletAndParent of the source: locate the first pre-order
occurrence of an identifier, returning node, parent, siblings, index. -/
def findBulletAndParent (tid : Nat) (nodes : List Bullet) : Option Found :=
  fbapGo tid none nodes 0 nodes

mutual

theorem fbapGo_none (tid : Nat) (parent : Option Bullet) (full : List Bullet) (i : Nat) :
    ∀ l : List Bullet, tid ∉ forestIds l → fbapGo tid parent full i l = none
  | [], _ => rfl
  | n :: rest, h => by
      obtain ⟨hb, hrest⟩ := forestIds_sub_cons n rest h
      have hne := id_ne_of_not_mem_bulletIds hb
      rw [fbapGo]
      rw [if_neg hne, fbapInto_none tid n (children_ids_of_not_mem_bulletIds hb)]
      exact fbapGo_none tid parent full (i + 1) rest hrest

theorem fbapInto_none (tid : Nat) :
    ∀ b : Bullet, tid ∉ forestIds b.children → fbapInto tid b = none
  | .mk i t cs c r ca ua, h => by
      rw [fbapInto]
      exact fbapGo_none tid _ cs 0 cs h

end

theorem findBulletAndParent_none (tid : Nat) (nodes : List Bullet)
    (h : tid ∉ forestIds nodes) : findBulletAndParent tid nodes = none :=
  fbapGo_none tid none nodes 0 nodes h

theorem fbapGo_skip (tid : Nat) (parent : Option Bullet) (full : List Bullet) :
    ∀ (pre : List Bullet) (i : Nat) (rest : List Bullet), tid ∉ forestIds pre →
      fbapGo tid parent full i (pre ++ rest) = fbapGo tid parent full (i + pre.length) rest := by
  intro pre
  induction pre with
  | nil => intro i rest _; simp
  | cons a pre' ih =>
      intro i rest h
      obtain ⟨hb, hrest⟩ := forestIds_sub_cons a pre' h
      have hne := id_ne_of_not_mem_bulletIds hb
      rw [List.cons_append, fbapGo, if_neg hne,
        fbapInto_none tid a (children_ids_of_not_mem_bulletIds hb), ih (i + 1) rest hrest]
      have h2 : i + 1 + pre'.length = i + (a :: pre').length := by
        simp [List.length_cons]
        omega
      rw [h2]

theorem fbapGo_hole (tid : Nat) (parent : Option Bullet) (full : List Bullet)
    (A : List Bullet) (x : Bullet) (B : List Bullet) (i : Nat)
    (hx : x.id = tid) (hA : tid ∉ forestIds A) :
    fbapGo tid parent full i (A ++ x :: B) = some ⟨x, parent, full, i + A.length⟩ := by
  rw [fbapGo_skip tid parent full A i (x :: B) hA, fbapGo, if_pos hx]

/-- Identifier freshness across a context: the identifier occurs neither
in the off-path subtrees nor as one of the path nodes. -/
def ctxIdFree (tid : Nat) : Ctx → Prop
  | .here => True
  | .deeper pre n c post =>
      tid ∉ forestIds pre ∧ tid ≠ n.id ∧ tid ∉ forestIds post ∧ ctxIdFree tid c

theorem fbapGo_plug_deep (tid : Nat) (A : List Bullet) (x : Bullet) (B : List Bullet)
    (hx : x.id = tid) (hA : tid ∉ forestIds A) :
    ∀ (c : Ctx), c.isHere = false → ctxIdFree tid c →
      ∀ (parent : Option Bullet) (full : List Bullet) (i : Nat),
        fbapGo tid parent full i (plug c (A ++ x :: B)) =
          some ⟨x, holeParent c (A ++ x :: B), A ++ x :: B, A.length⟩ := by
  intro c
  induction c with
  | here => intro h; cases h
  | deeper pre n c' post ih =>
      intro _ hfree parent full i
      obtain ⟨hpre, hne, _, hc'⟩ := hfree
      rw [plug_deeper, fbapGo_skip tid parent full pre i _ hpre, fbapGo]
      have hid : (setChildren n (plug c' (A ++ x :: B))).id = n.id := by
        cases n with
        | mk ni nt ncs nc nr nca nua => simp [setChildren, Bullet.id]
      rw [if_neg (by rw [hid]; exact fun he => hne he.symm)]
      cases n with
      | mk ni nt ncs nc nr nca nua =>
          rw [setChildren, fbapInto]
          cases hch : c' with
          | here =>
              rw [plug_here, fbapGo_hole tid _ _ A x B 0 hx hA]
              simp [holeParent, setChildren]
          | deeper p2 n2 c2 q2 =>
              subst hch
              rw [ih (by simp [Ctx.isHere]) hc' _ _ 0]
              simp [holeParent]

/-- findBulletAndParent at a hole configuration: the forest is an
arbitrary context plugged with a sibling list containing the target; the
search returns the target with its enclosing parent, list and index. -/
theorem findBulletAndParent_plug (tid : Nat) (C : Ctx) (A : List Bullet) (x : Bullet)
    (B : List Bullet) (hx : x.id = tid) (hC : ctxIdFree tid C) (hA : tid ∉ forestIds A) :
    findBulletAndParent tid (plug C (A ++ x :: B)) =
      some ⟨x, holeParent C (A ++ x :: B), A ++ x :: B, A.length⟩ := by
  cases hch : C with
  | here =>
      rw [findBulletAndParent, plug_here, fbapGo_hole tid none _ A x B 0 hx hA]
      simp [holeParent]
  | deeper pre n c post =>
      rw [findBulletAndParent,
        fbapGo_plug_deep tid A x B hx hA _ (by simp [Ctx.isHere]) (hch ▸ hC) none _ 0]

theorem mem_forestIds_of_mem_nodes {l : List Bullet} {m : Bullet}
    (h : m ∈ forestNodes l) : m.id ∈ forestIds l :=
  List.mem_map_of_mem Bullet.id h

theorem hit_ne_of_fresh {l : List Bullet} {m : Bullet} {tid : Nat}
    (hm : m ∈ forestNodes l) (h : tid ∉ forestIds l) : m.id ≠ tid := by
  intro he
  exact h (he ▸ mem_forestIds_of_mem_nodes hm)

theorem mem_bulletNodes_of_children {b m : Bullet}
    (h : m ∈ forestNodes b.children) : m ∈ bulletNodes b := by
  cases b with
  | mk i t cs c r ca ua =>
      simp only [Bullet.children] at h
      simp only [bulletNodes]
      exact List.mem_cons_of_mem _ h

theorem forest_children_of_cons {n : Bullet} {rest : List Bullet} {m : Bullet}
    (h : m ∈ forestNodes n.children) : m ∈ forestNodes (n :: rest) := by
  have h1 : m ∈ bulletNodes n := mem_bulletNodes_of_children h
  have h2 : forestNodes (n :: rest) = bulletNodes n ++ forestNodes rest := by
    cases rest <;> simp [forestNodes]
  rw [h2]
  exact List.mem_append_left _ h1

theorem forest_rest_of_cons {n : Bullet} {rest : List Bullet} {m : Bullet}
    (h : m ∈ forestNodes rest) : m ∈ forestNodes (n :: rest) := by
  have h2 : forestNodes (n :: rest) = bulletNodes n ++ forestNodes rest := by
    cases rest <;> simp [forestNodes]
  rw [h2]
  exact List.mem_append_right _ h

theorem self_mem_forest_cons (n : Bullet) (rest : List Bullet) :
    n ∈ forestNodes (n :: rest) :=
  mem_forestNodes_of_root (List.mem_cons_self n rest)

/-!  The generic clone-locate-splice rewrite shared by the structural
mutators of the source: every mutator clones the tree, locates the first
pre-order occurrence of a target (by identifier, or, for outdent, by
direct-child identifier), splices the sibling list around it, and
optionally refreshes the parent's updatedAt.  The engine below captures
that shape once; every mutator instantiates it. -/

/-- Instantiation data of the generic rewrite.  onFound receives the
element immediately before the located node (if any), the located node,
and its following siblings, and returns the replacement for that whole
segment (none encodes a structurally impossible request: the source then
returns the previous state unchanged). -/
structure DfsCfg : Type where
  hit : Bullet → Bool
  onFound : Option Bullet → Bullet → List Bullet → Option (List Bullet)
  parentTouch : Bool
  now : Nat

/-- Result of the rewrite on one node. -/
inductive NRes : Type where
  | notFound : NRes
  | noop : NRes
  | ok (b : Bullet) : NRes

/-- Result of the rewrite on a sibling list: the hit happened at the top
level of this list (hereL) or deeper (deepL); the carried list replaces
the scanned segment. -/
inductive DRes : Type where
  | notFound : DRes
  | noop : DRes
  | hereL (l : List Bullet) : DRes
  | deepL (l : List Bullet) : DRes

mutual

/-- Rewrite inside one node's children, refreshing its updatedAt when the
hit happened directly among them and the configuration asks for it. -/
def dfsB (g : DfsCfg) : Bullet → NRes
  | .mk i t cs c r ca ua =>
      match dfsL g cs with
      | .hereL cs' => .ok (.mk i t cs' c r ca (if g.parentTouch then some g.now else ua))
      | .deepL cs' => .ok (.mk i t cs' c r ca ua)
      | .noop => .noop
      | .notFound => .notFound

/-- Rewrite over a sibling list (first element has no previous sibling). -/
def dfsL (g : DfsCfg) : List Bullet → DRes
  | [] => .notFound
  | n :: rest =>
      if g.hit n then
        match g.onFound none n rest with
        | some l => .hereL l
        | none => .noop
      else
        match dfsB g n with
        | .ok n' => .deepL (n' :: rest)
        | .noop => .noop
        | .notFound => dfsCont g n rest

/-- Rewrite over the tail of a sibling list; p is the element right
before the head.  The carried result replaces p followed by the tail. -/
def dfsCont (g : DfsCfg) (p : Bullet) : List Bullet → DRes
  | [] => .notFound
  | m :: rest =>
      if g.hit m then
        match g.onFound (some p) m rest with
        | some l => .hereL l
        | none => .noop
      else
        match dfsB g m with
        | .ok m' => .deepL (p :: m' :: rest)
        | .noop => .noop
        | .notFound =>
            match dfsCont g m rest with
            | .hereL l => .hereL (p :: l)
            | .deepL l => .deepL (p :: l)
            | .noop => .noop
            | .notFound => .notFound

end

/-- Run a configured rewrite, returning the unchanged forest on failure,
as every source mutator does. -/
def runDfs (g : DfsCfg) (nodes : List Bullet) : List Bullet :=
  match dfsL g nodes with
  | .hereL l => l
  | .deepL l => l
  | .noop => nodes
  | .notFound => nodes

mutual

theorem dfsB_notFound (g : DfsCfg) :
    ∀ b : Bullet, (∀ m ∈ forestNodes b.children, g.hit m = false) →
      dfsB g b = .notFound
  | .mk i t cs c r ca ua, h => by
      rw [dfsB]
      rw [dfsL_notFound g cs h]

theorem dfsL_notFound (g : DfsCfg) :
    ∀ l : List Bullet, (∀ m ∈ forestNodes l, g.hit m = false) →
      dfsL g l = .notFound
  | [], _ => rfl
  | n :: rest, h => by
      rw [dfsL]
      rw [if_neg (by rw [h n (self_mem_forest_cons n rest)]; exact fun k => nomatch k)]
      rw [dfsB_notFound g n (fun m hm => h m (forest_children_of_cons hm))]
      exact dfsCont_notFound g n rest (fun m hm => h m (forest_rest_of_cons hm))

theorem dfsCont_notFound (g : DfsCfg) :
    ∀ (p : Bullet) (l : List Bullet), (∀ m ∈ forestNodes l, g.hit m = false) →
      dfsCont g p l = .notFound
  | _, [], _ => rfl
  | p, m :: rest, h => by
      rw [dfsCont]
      rw [if_neg (by rw [h m (self_mem_forest_cons m rest)]; exact fun k => nomatch k)]
      rw [dfsB_notFound g m (fun x hx => h x (forest_children_of_cons hx))]
      rw [dfsCont_notFound g m rest (fun x hx => h x (forest_rest_of_cons hx))]

end

theorem runDfs_notFound (g : DfsCfg) (nodes : List Bullet)
    (h : ∀ m ∈ forestNodes nodes, g.hit m = false) : runDfs g nodes = nodes := by
  rw [runDfs, dfsL_notFound g nodes h]

theorem dfsCont_hole (g : DfsCfg) :
    ∀ (pre : List Bullet) (p x : Bullet) (B : List Bullet),
      (∀ m ∈ forestNodes pre, g.hit m = false) → g.hit x = true →
      dfsCont g p (pre ++ x :: B) =
        match g.onFound (some ((p :: pre).getLast (List.cons_ne_nil p pre))) x B with
        | some l => .hereL ((p :: pre).dropLast ++ l)
        | none => .noop := by
  intro pre
  induction pre with
  | nil =>
      intro p x B _ hx
      have hl : (p :: ([] : List Bullet)).getLast (List.cons_ne_nil p []) = p := rfl
      rw [List.nil_append, dfsCont, if_pos hx, hl]
      cases g.onFound (some p) x B <;> simp
  | cons q pre' ih =>
      intro p x B hfree hx
      have hq : g.hit q = false := hfree q (self_mem_forest_cons q pre')
      rw [List.cons_append, dfsCont,
        if_neg (by rw [hq]; exact fun k => nomatch k),
        dfsB_notFound g q (fun m hm => hfree m (forest_children_of_cons hm)),
        ih q x B (fun m hm => hfree m (forest_rest_of_cons hm)) hx]
      have hlast : (q :: pre').getLast (List.cons_ne_nil q pre') =
          (p :: q :: pre').getLast (List.cons_ne_nil p (q :: pre')) :=
        (List.getLast_cons (List.cons_ne_nil q pre')).symm
      rw [hlast]
      cases g.onFound (some ((p :: q :: pre').getLast (List.cons_ne_nil p (q :: pre')))) x B <;>
        simp [List.dropLast]

theorem dfsL_hole (g : DfsCfg) (A : List Bullet) (x : Bullet) (B : List Bullet)
    (hA : ∀ m ∈ forestNodes A, g.hit m = false) (hx : g.hit x = true) :
    dfsL g (A ++ x :: B) =
      match g.onFound A.getLast? x B with
      | some l => .hereL (A.dropLast ++ l)
      | none => .noop := by
  cases A with
  | nil =>
      rw [List.nil_append, dfsL, if_pos hx]
      simp only [List.getLast?_nil, List.dropLast_nil, List.nil_append]
  | cons a A' =>
      have ha : g.hit a = false := hA a (self_mem_forest_cons a A')
      rw [List.cons_append, dfsL,
        if_neg (by rw [ha]; exact fun k => nomatch k),
        dfsB_notFound g a (fun m hm => hA m (forest_children_of_cons hm)),
        dfsCont_hole g A' a x B (fun m hm => hA m (forest_rest_of_cons hm)) hx]
      have hlast : (a :: A').getLast? = some ((a :: A').getLast (List.cons_ne_nil a A')) :=
        List.getLast?_eq_getLast _ _
      rw [hlast]

theorem dfsCont_seek_ok (g : DfsCfg) :
    ∀ (pre : List Bullet) (p n' : Bullet) (post : List Bullet) (v : Bullet),
      (∀ m ∈ forestNodes pre, g.hit m = false) → g.hit n' = false →
      dfsB g n' = .ok v →
      dfsCont g p (pre ++ n' :: post) = .deepL (p :: (pre ++ v :: post)) := by
  intro pre
  induction pre with
  | nil =>
      intro p n' post v _ hn hb
      rw [List.nil_append, dfsCont, if_neg (by rw [hn]; exact fun k => nomatch k), hb]
      simp
  | cons q pre' ih =>
      intro p n' post v hfree hn hb
      have hq : g.hit q = false := hfree q (self_mem_forest_cons q pre')
      rw [List.cons_append, dfsCont,
        if_neg (by rw [hq]; exact fun k => nomatch k),
        dfsB_notFound g q (fun m hm => hfree m (forest_children_of_cons hm)),
        ih q n' post v (fun m hm => hfree m (forest_rest_of_cons hm)) hn hb]
      simp

theorem dfsCont_seek_noop (g : DfsCfg) :
    ∀ (pre : List Bullet) (p n' : Bullet) (post : List Bullet),
      (∀ m ∈ forestNodes pre, g.hit m = false) → g.hit n' = false →
      dfsB g n' = .noop →
      dfsCont g p (pre ++ n' :: post) = .noop := by
  intro pre
  induction pre with
  | nil =>
      intro p n' post _ hn hb
      rw [List.nil_append, dfsCont, if_neg (by rw [hn]; exact fun k => nomatch k), hb]
  | cons q pre' ih =>
      intro p n' post hfree hn hb
      have hq : g.hit q = false := hfree q (self_mem_forest_cons q pre')
      rw [List.cons_append, dfsCont,
        if_neg (by rw [hq]; exact fun k => nomatch k),
        dfsB_notFound g q (fun m hm => hfree m (forest_children_of_cons hm)),
        ih q n' post (fun m hm => hfree m (forest_rest_of_cons hm)) hn hb]

theorem dfsL_seek_ok (g : DfsCfg) (A : List Bullet) (n' : Bullet) (post : List Bullet)
    (v : Bullet) (hA : ∀ m ∈ forestNodes A, g.hit m = false) (hn : g.hit n' = false)
    (hb : dfsB g n' = .ok v) :
    dfsL g (A ++ n' :: post) = .deepL (A ++ v :: post) := by
  cases A with
  | nil =>
      rw [List.nil_append, dfsL, if_neg (by rw [hn]; exact fun k => nomatch k), hb]
      simp
  | cons a A' =>
      have ha : g.hit a = false := hA a (self_mem_forest_cons a A')
      rw [List.cons_append, dfsL,
        if_neg (by rw [ha]; exact fun k => nomatch k),
        dfsB_notFound g a (fun m hm => hA m (forest_children_of_cons hm)),
        dfsCont_seek_ok g A' a n' post v (fun m hm => hA m (forest_rest_of_cons hm)) hn hb]
      simp

theorem dfsL_seek_noop (g : DfsCfg) (A : List Bullet) (n' : Bullet) (post : List Bullet)
    (hA : ∀ m ∈ forestNodes A, g.hit m = false) (hn : g.hit n' = false)
    (hb : dfsB g n' = .noop) :
    dfsL g (A ++ n' :: post) = .noop := by
  cases A with
  | nil =>
      rw [List.nil_append, dfsL, if_neg (by rw [hn]; exact fun k => nomatch k), hb]
  | cons a A' =>
      have ha : g.hit a = false := hA a (self_mem_forest_cons a A')
      rw [List.cons_append, dfsL,
        if_neg (by rw [ha]; exact fun k => nomatch k),
        dfsB_notFound g a (fun m hm => hA m (forest_children_of_cons hm)),
        dfsCont_seek_noop g A' a n' post (fun m hm => hA m (forest_rest_of_cons hm)) hn hb]

/-- The scanned portion of a context is hit-free: the off-path subtrees
preceding the hole and the path nodes themselves never satisfy the hit
test, so the depth-first scan reaches the hole first. -/
def pathHitFree (g : DfsCfg) : Ctx → List Bullet → Prop
  | .here, _ => True
  | .deeper pre n c _, l =>
      (∀ m ∈ forestNodes pre, g.hit m = false) ∧
      g.hit (setChildren n (plug c l)) = false ∧
      pathHitFree g c l

theorem dfs_hole (g : DfsCfg) :
    ∀ (C : Ctx) (A : List Bullet) (x : Bullet) (B : List Bullet),
      pathHitFree g C (A ++ x :: B) →
      (∀ m ∈ forestNodes A, g.hit m = false) → g.hit x = true →
      dfsL g (plug C (A ++ x :: B)) =
        match g.onFound A.getLast? x B with
        | some l =>
            (if C.isHere then DRes.hereL else DRes.deepL)
              (plugP g.parentTouch g.now C (A.dropLast ++ l))
        | none => .noop := by
  intro C
  induction C with
  | here =>
      intro A x B _ hA hx
      rw [plug_here, dfsL_hole g A x B hA hx]
      cases g.onFound A.getLast? x B <;> simp [Ctx.isHere, plugP]
  | deeper pre n c post ih =>
      intro A x B hpath hA hx
      obtain ⟨hpre, hn, hc⟩ := hpath
      rw [plug_deeper]
      cases n with
      | mk ni nt ncs nc nr nca nua =>
          cases hf : g.onFound A.getLast? x B with
          | some l =>
              have hinner := ih A x B hc hA hx
              rw [hf] at hinner
              cases c with
              | here =>
                  simp only [Ctx.isHere, if_true] at hinner
                  have hok : dfsB g (setChildren (.mk ni nt ncs nc nr nca nua)
                      (plug .here (A ++ x :: B))) =
                      .ok (.mk ni nt (plugP g.parentTouch g.now .here (A.dropLast ++ l))
                        nc nr nca (if g.parentTouch then some g.now else nua)) := by
                    rw [setChildren, dfsB, hinner]
                  rw [dfsL_seek_ok g pre _ post _ hpre hn hok]
                  simp [Ctx.isHere, plugP, setChildren, touchNode]
              | deeper p2 n2 c2 q2 =>
                  simp only [Ctx.isHere, Bool.false_eq_true, if_false] at hinner
                  have hok : dfsB g (setChildren (.mk ni nt ncs nc nr nca nua)
                      (plug (.deeper p2 n2 c2 q2) (A ++ x :: B))) =
                      .ok (.mk ni nt
                        (plugP g.parentTouch g.now (.deeper p2 n2 c2 q2) (A.dropLast ++ l))
                        nc nr nca nua) := by
                    rw [setChildren, dfsB, hinner]
                  rw [dfsL_seek_ok g pre _ post _ hpre hn hok]
                  simp [Ctx.isHere, plugP, setChildren, touchNode]
          | none =>
              have hinner := ih A x B hc hA hx
              rw [hf] at hinner
              have hnoop : dfsB g (setChildren (.mk ni nt ncs nc nr nca nua)
                  (plug c (A ++ x :: B))) = .noop := by
                rw [setChildren, dfsB, hinner]
              rw [dfsL_seek_noop g pre _ post hpre hn hnoop]

theorem runDfs_hole_some (g : DfsCfg) (C : Ctx) (A : List Bullet) (x : Bullet)
    (B l : List Bullet) (hpath : pathHitFree g C (A ++ x :: B))
    (hA : ∀ m ∈ forestNodes A, g.hit m = false) (hx : g.hit x = true)
    (hf : g.onFound A.getLast? x B = some l) :
    runDfs g (plug C (A ++ x :: B)) = plugP g.parentTouch g.now C (A.dropLast ++ l) := by
  rw [runDfs, dfs_hole g C A x B hpath hA hx, hf]
  cases C.isHere <;> simp

theorem runDfs_hole_none (g : DfsCfg) (C : Ctx) (A : List Bullet) (x : Bullet)
    (B : List Bullet) (hpath : pathHitFree g C (A ++ x :: B))
    (hA : ∀ m ∈ forestNodes A, g.hit m = false) (hx : g.hit x = true)
    (hf : g.onFound A.getLast? x B = none) :
    runDfs g (plug C (A ++ x :: B)) = plug C (A ++ x :: B) := by
  rw [runDfs, dfs_hole g C A x B hpath hA hx, hf]

/-!  The mutators of the source (App variant of version 0.1.19, the one
carrying the full engine: read-only guards, siblings-follow outdent,
recursive fold; the claims cite these line ranges).  Date.now() is the
explicit argument now; crypto.randomUUID() an explicit fresh identifier.
The side effects on the focus state and the recents index are returned
as data where a claim needs them and noted in comments otherwise. -/

/-- createNewBullet of the source: empty-or-given text, no children,
expanded, read-write (the source object carries no isReadOnly key),
both timestamps set to creation time. -/
def createNewBullet (freshId now : Nat) (text : String) : Bullet :=
  .mk freshId text [] false false (some now) (some now)

/-- Hit test used by every identifier-addressed mutator. -/
def idHit (tid : Nat) : Bullet → Bool := fun b => b.id == tid

/-- Hit test of outdent: the node whose direct children contain the
target (the target's parent). -/
def childHit (tid : Nat) : Bullet → Bool :=
  fun b => b.children.any (fun c => c.id == tid)

/-- addSibling splice: reject a read-only target, otherwise insert the
new bullet right after the target. -/
def addSiblingFound (newB : Bullet) :
    Option Bullet → Bullet → List Bullet → Option (List Bullet) :=
  fun prev x after =>
    if x.isReadOnly then none
    else some (prev.toList ++ x :: newB :: after)

/-- handleAddSibling: create the bullet, locate the target, reject
read-only targets, splice after it, refresh the parent's updatedAt.
(The source also focuses the new bullet and pushes it on the recents
index.) -/
def handleAddSibling (now freshId tid : Nat) (text : String)
    (bullets : List Bullet) : List Bullet :=
  runDfs ⟨idHit tid, addSiblingFound (createNewBullet freshId now text), true, now⟩ bullets

/-- delete splice: remove the located node from its sibling list. -/
def deleteFound : Option Bullet → Bullet → List Bullet → Option (List Bullet) :=
  fun prev _ after => some (prev.toList ++ after)

/-- handleDelete: read-only guard on the located node, then splice it
out and refresh the parent's updatedAt.  (The source also computes the
next focus target and forgets the node in the recents index.) -/
def handleDelete (now tid : Nat) (bullets : List Bullet) : List Bullet :=
  match findBulletAndParent tid bullets with
  | some f =>
      if f.node.isReadOnly then bullets
      else runDfs ⟨idHit tid, deleteFound, true, now⟩ bullets
  | none => bullets

/-- indent splice: no previous sibling means a no-op; a read-only
previous sibling is rejected; otherwise the target (updatedAt refreshed)
becomes the last child of the previous sibling, which is force-unfolded. -/
def indentFound (now : Nat) :
    Option Bullet → Bullet → List Bullet → Option (List Bullet) :=
  fun prev x after =>
    match prev with
    | none => none
    | some p =>
        if p.isReadOnly then none
        else
          match p with
          | .mk pi pt pcs _ pr pca pua =>
              some (.mk pi pt (pcs ++ [touchNode true now x]) false pr pca pua :: after)

/-- handleIndent of the source. -/
def handleIndent (now tid : Nat) (bullets : List Bullet) : List Bullet :=
  match findBulletAndParent tid bullets with
  | some f =>
      if f.node.isReadOnly then bullets
      else runDfs ⟨idHit tid, indentFound now, false, now⟩ bullets
  | none => bullets

/-- Split a sibling list at its first element carrying the identifier. -/
def splitFirstById (tid : Nat) : List Bullet → Option (List Bullet × Bullet × List Bullet)
  | [] => none
  | b :: rest =>
      if b.id = tid then some ([], b, rest)
      else
        match splitFirstById tid rest with
        | some (a, x, c) => some (b :: a, x, c)
        | none => none

/-- outdent splice, applied at the target's parent: reject a read-only
parent; split the parent's children around the target; the target takes
the trailing siblings as its own trailing children (updatedAt
refreshed) and is reinserted right after the parent. -/
def outdentFound (now tid : Nat) :
    Option Bullet → Bullet → List Bullet → Option (List Bullet) :=
  fun prev p after =>
    if p.isReadOnly then none
    else
      match splitFirstById tid p.children with
      | some (a, x, b) =>
          some (prev.toList ++ setChildren p a ::
            (match x with
             | .mk xi xt xcs xc xr xca _ => .mk xi xt (xcs ++ b) xc xr xca (some now)) :: after)
      | none => none

/-- handleOutdent of the source: read-only guard on the target, then the
rewrite at the target's parent (no-op for a root-level target, which has
no parent). -/
def handleOutdent (now tid : Nat) (bullets : List Bullet) : List Bullet :=
  match findBulletAndParent tid bullets with
  | some f =>
      if f.node.isReadOnly then bullets
      else runDfs ⟨childHit tid, outdentFound now tid, false, now⟩ bullets
  | none => bullets

/-- Direction of handleMoveBullet. -/
inductive MoveDir : Type where
  | up : MoveDir
  | down : MoveDir

/-- move splice: refresh the target's updatedAt and swap it with its
previous (up) or next (down) sibling; a list boundary is a no-op. -/
def moveFound (now : Nat) (dir : MoveDir) :
    Option Bullet → Bullet → List Bullet → Option (List Bullet) :=
  fun prev x after =>
    match dir with
    | .up =>
        match prev with
        | none => none
        | some p => some (touchNode true now x :: p :: after)
    | .down =>
        match after with
        | [] => none
        | m :: rest => some (prev.toList ++ m :: touchNode true now x :: rest)

/-- handleMoveBullet of the source. -/
def handleMoveBullet (now tid : Nat) (dir : MoveDir) (bullets : List Bullet) :
    List Bullet :=
  match findBulletAndParent tid bullets with
  | some f =>
      if f.node.isReadOnly then bullets
      else runDfs ⟨idHit tid, moveFound now dir, false, now⟩ bullets
  | none => bullets

/-- Caret hint accompanying a focus request. -/
inductive FocusPos : Type where
  | start : FocusPos
  | atEnd : FocusPos
  | offset (n : Nat) : FocusPos

/-- merge splice at a target with a previous sibling: the previous
sibling absorbs the target's text and children, refreshes its updatedAt
and force-unfolds when the target brought children; the target is
removed. -/
def mergeFound (now : Nat) :
    Option Bullet → Bullet → List Bullet → Option (List Bullet) :=
  fun prev x after =>
    match prev with
    | none => none
    | some p =>
        if p.isReadOnly then none
        else
          match p with
          | .mk pi pt pcs pc pr pca _ =>
              some (.mk pi (pt ++ x.text) (pcs ++ x.children)
                (if x.children.isEmpty then pc else false) pr pca (some now) :: after)

/-- handleMerge of the source: returns the new forest and the focus
request it issues (target identifier, or none for the root level, and
the caret position).  A target with a previous sibling merges into it
with the caret at the previous text's length; a first-in-list target
with empty text is removed with focus moving to the parent's end; any
other configuration is a no-op. -/
def handleMerge (now tid : Nat) (bullets : List Bullet) :
    List Bullet × Option (Option Nat × FocusPos) :=
  match findBulletAndParent tid bullets with
  | none => (bullets, none)
  | some f =>
      if f.node.isReadOnly then (bullets, none)
      else if 0 < f.index then
        match f.siblings[f.index - 1]? with
        | none => (bullets, none)
        | some prevSibling =>
            if prevSibling.isReadOnly then (bullets, none)
            else
              (runDfs ⟨idHit tid, mergeFound now, true, now⟩ bullets,
                some (some prevSibling.id, .offset prevSibling.text.length))
      else if f.node.text = "" then
        (runDfs ⟨idHit tid, deleteFound, true, now⟩ bullets,
          some (f.parent.map Bullet.id, .atEnd))
      else (bullets, none)

mutual

/-- mapBullets of the source: the callback is applied to every node and
changed branches are rebuilt.  The source recursion descends into
callback(node).children; this development only ever instantiates the
callback with handleUpdate's patching function, which preserves the
children field, and for such callbacks that is the same list as
node.children, into which this embedding descends.  The source's
identity checks (returning the original objects when nothing changed)
are a reference-level device; they select between values that are equal,
so they have no value-level counterpart here. -/
def mapBullets (f : Bullet → Bullet) : List Bullet → List Bullet
  | [] => []
  | node :: rest => mapBullet f node :: mapBullets f rest

/-- One node of the mapBullets traversal. -/
def mapBullet (f : Bullet → Bullet) : Bullet → Bullet
  | .mk i t cs c r ca ua =>
      setChildren (f (.mk i t cs c r ca ua)) (mapBullets f cs)

end

/-- The partial update accepted by handleUpdate: the fields the app
actually patches (text edits and fold toggles). -/
structure BulletPatch : Type where
  text : Option String
  isCollapsed : Option Bool

/-- Spread of a patch over a bullet, as in the source's object spread. -/
def applyPatch (p : BulletPatch) : Bullet → Bullet
  | .mk i t cs c r ca ua => .mk i (p.text.getD t) cs (p.isCollapsed.getD c) r ca ua

/-- handleUpdate (setFields) of the source: read-only guard on the
located target, refresh updatedAt only when some key other than
isCollapsed is patched, and rebuild through mapBullets.  (The source
also refreshes the recents and favorites indexes on text changes.) -/
def handleUpdate (now tid : Nat) (p : BulletPatch) (bullets : List Bullet) :
    List Bullet :=
  let found := findBulletAndParent tid bullets
  if (match found with | some f => f.node.isReadOnly | none => false) then bullets
  else
    mapBullets (fun b =>
      if b.id = tid then
        match applyPatch p b with
        | .mk i t cs c r ca ua =>
            .mk i t cs c r ca (if p.text.isSome then some now else ua)
      else b) bullets

mutual

/-- setCollapseRecursively of the source: a node with children gets the
flag set; recursion continues below it only when it is read-write;
childless nodes are untouched. -/
def setCollapseRecursively (collapse : Bool) : List Bullet → List Bullet
  | [] => []
  | n :: rest => scrNode collapse n :: setCollapseRecursively collapse rest

/-- One node of setCollapseRecursively. -/
def scrNode (collapse : Bool) : Bullet → Bullet
  | .mk i t cs c r ca ua =>
      if cs.isEmpty then .mk i t cs c r ca ua
      else if r then .mk i t cs collapse r ca ua
      else .mk i t (setCollapseRecursively collapse cs) collapse r ca ua

end

mutual

/-- findAndFold of the source: at the target (if it has children) set
the flag and run setCollapseRecursively on its children; elsewhere keep
searching. -/
def findAndFold (tid : Nat) (collapse : Bool) : List Bullet → List Bullet
  | [] => []
  | n :: rest => fafNode tid collapse n :: findAndFold tid collapse rest

/-- One node of findAndFold. -/
def fafNode (tid : Nat) (collapse : Bool) : Bullet → Bullet
  | .mk i t cs c r ca ua =>
      if i = tid then
        if cs.isEmpty then .mk i t cs c r ca ua
        else .mk i t (setCollapseRecursively collapse cs) collapse r ca ua
      else
        if cs.isEmpty then .mk i t cs c r ca ua
        else .mk i t (findAndFold tid collapse cs) c r ca ua

end

/-- handleFoldAll of the source. -/
def handleFoldAll (tid : Nat) (collapse : Bool) (bullets : List Bullet) :
    List Bullet :=
  findAndFold tid collapse bullets

/-- The auto-prune effect run on every focus transition: when focus
leaves an existing, read-write, empty and childless item, that item is
spliced out of its sibling list and the recents index is told to forget
it (second component).  The caller stores currentId as the new previous
focus after every run. -/
def pruneOnFocusChange (prevId currentId : Option Nat) (bullets : List Bullet) :
    List Bullet × Option Nat :=
  match prevId with
  | none => (bullets, none)
  | some pid =>
      if currentId = some pid then (bullets, none)
      else
        match findBulletAndParent pid bullets with
        | some f =>
            if f.node.isReadOnly then (bullets, none)
            else if f.node.text = "" && f.node.children.isEmpty then
              (runDfs ⟨idHit pid, deleteFound, false, 0⟩ bullets, some pid)
            else (bullets, none)
        | none => (bullets, none)

mutual

/-- Visible-order helper of the source over one node: its identifier,
then recursively its children when it is expanded and has any. -/
def getVisibleIdsB : Bullet → List Nat
  | .mk i _ cs c _ _ _ =>
      i :: (if !c && !cs.isEmpty then getVisibleIds cs else [])

/-- getVisibleIds of the source: the flattened, collapse-respecting
pre-order sequence of identifiers. -/
def getVisibleIds : List Bullet → List Nat
  | [] => []
  | b :: rest => getVisibleIdsB b ++ getVisibleIds rest

end

mutual

/-- findPath step of the breadcrumbs computation on one node. -/
def findPathB (tid : Nat) : Bullet → Option (List Bullet)
  | .mk i t cs c r ca ua =>
      if i = tid then some [.mk i t cs c r ca ua]
      else
        match findPathL tid cs with
        | some p => some (.mk i t cs c r ca ua :: p)
        | none => none

/-- findPath of the breadcrumbs computation over a sibling list. -/
def findPathL (tid : Nat) : List Bullet → Option (List Bullet)
  | [] => none
  | b :: rest =>
      match findPathB tid b with
      | some p => some p
      | none => findPathL tid rest

end

/-- breadcrumbs of the source: the root-to-target path of the zoomed
item, empty when nothing is zoomed or the target is gone. -/
def breadcrumbs (zoomedId : Option Nat) (bullets : List Bullet) : List Bullet :=
  match zoomedId with
  | none => []
  | some tid => (findPathL tid bullets).getD []

mutual

/-- First pre-order node with the given identifier, on one node. -/
def findBulletB (tid : Nat) : Bullet → Option Bullet
  | .mk i t cs c r ca ua =>
      if i = tid then some (.mk i t cs c r ca ua)
      else findBulletL tid cs

/-- First pre-order node with the given identifier, over a list. -/
def findBulletL (tid : Nat) : List Bullet → Option Bullet
  | [] => none
  | b :: rest =>
      match findBulletB tid b with
      | some f => some f
      | none => findBulletL tid rest

end

/-- displayedBullets of the source: the whole forest when not zoomed,
the zoomed node's children when zoomed, empty when the zoom target is
gone. -/
def displayedBullets (zoomedId : Option Nat) (bullets : List Bullet) : List Bullet :=
  match zoomedId with
  | none => bullets
  | some tid =>
      match findBulletL tid bullets with
      | some z => z.children
      | none => []

/-- zoom-into-leaf splice: push the auto-created child onto the target's
children and force-unfold the target (the source deliberately leaves the
target's updatedAt alone here). -/
def zoomAddFound (newB : Bullet) :
    Option Bullet → Bullet → List Bullet → Option (List Bullet) :=
  fun prev x after =>
    some (prev.toList ++
      (match x with
       | .mk i t cs _ r ca ua => .mk i t (cs ++ [newB]) false r ca ua) :: after)

/-- Result of handleZoom: the forest, the zoom target and the focus
request it issues. -/
structure ZoomOut : Type where
  bullets : List Bullet
  zoomedId : Option Nat
  focus : Option Nat

/-- handleZoom of the source.  Zooming to none zooms out to the root and
focuses the previously zoomed item (or the first visible root).  Zooming
into a read-write leaf auto-creates one empty child, force-unfolds the
leaf, zooms into it and focuses the new child.  Otherwise the zoom is
set and focus goes to the previous zoom target when zooming out along
the breadcrumbs, or to the first visible child when zooming in. -/
def handleZoom (freshId now : Nat) (id : Option Nat) (bullets : List Bullet)
    (oldZoomedId : Option Nat) : ZoomOut :=
  match id with
  | none =>
      match oldZoomedId with
      | some oz => ⟨bullets, none, some oz⟩
      | none => ⟨bullets, none, (getVisibleIds bullets).head?⟩
  | some tid =>
      match findBulletL tid bullets with
      | none => ⟨bullets, oldZoomedId, none⟩
      | some bz =>
          if bz.children.isEmpty && !bz.isReadOnly then
            let newB := createNewBullet freshId now ""
            ⟨runDfs ⟨idHit tid, zoomAddFound newB, false, now⟩ bullets,
              some tid, some freshId⟩
          else
            let crumbs := breadcrumbs oldZoomedId bullets
            if crumbs.any (fun b => b.id == tid) && oldZoomedId.isSome then
              ⟨bullets, some tid, oldZoomedId⟩
            else if !bz.children.isEmpty then
              ⟨bullets, some tid, (getVisibleIds bz.children).head?⟩
            else ⟨bullets, some tid, none⟩

/-- JS falsy-or over an optional timestamp: undefined and 0 both yield
the fallback, any other stored value is kept (node.createdAt || now). -/
def orFalsy (o : Option Nat) (now : Nat) : Nat :=
  match o with
  | some t => if t = 0 then now else t
  | none => now

mutual

/-- migrateBullets of the source on one node: backfill createdAt and
updatedAt with the load time through JS falsy-or, recursively. -/
def migrateBullet (now : Nat) : Bullet → Bullet
  | .mk i t cs c r ca ua =>
      .mk i t (migrateBullets now cs) c r (some (orFalsy ca now)) (some (orFalsy ua now))

/-- migrateBullets of the source over a list. -/
def migrateBullets (now : Nat) : List Bullet → List Bullet
  | [] => []
  | b :: rest => migrateBullet now b :: migrateBullets now rest

end

mutual

/-- regenerateIds of the source on one node: crypto.randomUUID() is
modelled as a supply handing out s, s + 1, ... in traversal order; the
supply is assumed fresh with respect to every identifier already in use
(UUID collision-freeness). -/
def regenerateBullet (s : Nat) : Bullet → Bullet × Nat
  | .mk _ t cs c r ca ua =>
      match regenerateIdsGo (s + 1) cs with
      | (cs', s') => (.mk s t cs' c r ca ua, s')

/-- Supply-threaded list traversal of regenerateIds. -/
def regenerateIdsGo (s : Nat) : List Bullet → List Bullet × Nat
  | [] => ([], s)
  | b :: rest =>
      match regenerateBullet s b with
      | (b', s') =>
          match regenerateIdsGo s' rest with
          | (rest', s'') => (b' :: rest', s'')

end

/-- regenerateIds of the source: every node of the payload, nested ones
included, receives a fresh identifier. -/
def regenerateIds (s : Nat) (nodes : List Bullet) : List Bullet :=
  (regenerateIdsGo s nodes).1

mutual

/-- addToTarget step of handleConfirmImport on one node: the chosen
target receives the imported forest as trailing children and is
force-unfolded; every other node just recurses. -/
def addToTargetNode (imported : List Bullet) (tid : Nat) : Bullet → Bullet
  | .mk i t cs c r ca ua =>
      if i = tid then .mk i t (cs ++ imported) false r ca ua
      else .mk i t (addToTarget imported tid cs) c r ca ua

/-- addToTarget of handleConfirmImport over a list. -/
def addToTarget (imported : List Bullet) (tid : Nat) : List Bullet → List Bullet
  | [] => []
  | n :: rest => addToTargetNode imported tid n :: addToTarget imported tid rest

end

/-- handleConfirmImport of the source: migrate the payload (timestamp
backfill), regenerate every identifier from the fresh supply, then
append the result at the root or under the chosen target. -/
def handleConfirmImport (now s : Nat) (payload : List Bullet)
    (targetId : Option Nat) (bullets : List Bullet) : List Bullet :=
  let imported := regenerateIds s (migrateBullets now payload)
  match targetId with
  | none => bullets ++ imported
  | some tid => addToTarget imported tid bullets

/-!  Quick-find search of the SearchModal component.  The query is
trimmed and lowercased, split on the whitespace-delimited token "or"
into OR-clauses (the source regex is a whitespace run, the literal
letters o r, and another whitespace run), each clause split on
whitespace into AND-terms; an item matches when its lowercased text
contains every term of at least one clause as a substring; the empty
(or all-whitespace) query keeps every item. -/

/-- JS whitespace class of the source regexes, on the characters the
application handles. -/
def isSpc (c : Char) : Bool := c.isWhitespace

/-- query.trim() of the source, on the character list: strip whitespace
from both ends. -/
def trimChars (l : List Char) : List Char :=
  ((l.dropWhile isSpc).reverse.dropWhile isSpc).reverse

/-- toLowerCase() of the source, on the character list. -/
def toLowerChars (l : List Char) : List Char := l.map Char.toLower

/-- Match one occurrence of the OR separator at the head of the text:
one or more whitespace characters, the letters o r, one or more
whitespace characters (all greedy); returns the rest after the match. -/
def matchOrSep (l : List Char) : Option (List Char) :=
  let s1 := l.takeWhile isSpc
  if s1.isEmpty then none
  else
    match l.drop s1.length with
    | 'o' :: 'r' :: rest2 =>
        let s2 := rest2.takeWhile isSpc
        if s2.isEmpty then none else some (rest2.drop s2.length)
    | _ => none

/-- Left-to-right scan of String.split on the OR-separator regex.  The
fuel is the length of the text: every step consumes at least one
character, so it never runs out on the initial call. -/
def splitOrGo : Nat → List Char → List Char → List (List Char)
  | _, acc, [] => [acc.reverse]
  | 0, acc, l => [acc.reverse ++ l]
  | fuel + 1, acc, c :: rest =>
      match matchOrSep (c :: rest) with
      | some r => acc.reverse :: splitOrGo fuel [] r
      | none => splitOrGo fuel (c :: acc) rest

/-- Split a lowercased query on the whitespace-delimited token or. -/
def splitOrClauses (l : List Char) : List (List Char) :=
  splitOrGo l.length [] l

/-- Split one OR-clause on whitespace and drop empty terms, as the
source's split(/\s+/).filter(term => term). -/
def splitWsTerms (clause : List Char) : List (List Char) :=
  (clause.splitOnP isSpc).filter (fun t => !t.isEmpty)

/-- searchConditionGroups of the source: OR-groups of AND-terms over the
trimmed, lowercased query. -/
def searchConditionGroups (query : String) : List (List (List Char)) :=
  (splitOrClauses (toLowerChars (trimChars query.toList))).map splitWsTerms

/-- String.includes of the source: substring containment. -/
def containsSub (needle hay : List Char) : Bool := decide (needle <:+: hay)

/-- The filter body of the source: the item text, lowercased, must
contain every AND-term of at least one OR-group as a substring. -/
def searchGroupsMatch (groups : List (List (List Char))) (textStr : String) : Bool :=
  groups.any (fun andTerms =>
    andTerms.all (fun term => containsSub term (toLowerChars textStr.toList)))

/-- filteredBullets of the SearchModal: the empty trimmed query keeps
everything, otherwise items are filtered by searchGroupsMatch. -/
def filteredBullets (query : String) (bullets : List Bullet) : List Bullet :=
  if (trimChars query.toList).isEmpty then bullets
  else bullets.filter (fun b => searchGroupsMatch (searchConditionGroups query) b.text)

@[simp] theorem Bullet.id_mk (i : Nat) (t : String) (cs : List Bullet)
    (c r : Bool) (ca ua : Option Nat) : (Bullet.mk i t cs c r ca ua).id = i := rfl

@[simp] theorem Bullet.text_mk (i : Nat) (t : String) (cs : List Bullet)
    (c r : Bool) (ca ua : Option Nat) : (Bullet.mk i t cs c r ca ua).text = t := rfl

@[simp] theorem Bullet.children_mk (i : Nat) (t : String) (cs : List Bullet)
    (c r : Bool) (ca ua : Option Nat) : (Bullet.mk i t cs c r ca ua).children = cs := rfl

@[simp] theorem Bullet.isCollapsed_mk (i : Nat) (t : String) (cs : List Bullet)
    (c r : Bool) (ca ua : Option Nat) : (Bullet.mk i t cs c r ca ua).isCollapsed = c := rfl

@[simp] theorem Bullet.isReadOnly_mk (i : Nat) (t : String) (cs : List Bullet)
    (c r : Bool) (ca ua : Option Nat) : (Bullet.mk i t cs c r ca ua).isReadOnly = r := rfl

@[simp] theorem Bullet.createdAt_mk (i : Nat) (t : String) (cs : List Bullet)
    (c r : Bool) (ca ua : Option Nat) : (Bullet.mk i t cs c r ca ua).createdAt = ca := rfl

@[simp] theorem Bullet.updatedAt_mk (i : Nat) (t : String) (cs : List Bullet)
    (c r : Bool) (ca ua : Option Nat) : (Bullet.mk i t cs c r ca ua).updatedAt = ua := rfl

@[simp] theorem setChildren_mk (i : Nat) (t : String) (cs : List Bullet)
    (c r : Bool) (ca ua : Option Nat) (l : List Bullet) :
    setChildren (.mk i t cs c r ca ua) l = .mk i t l c r ca ua := rfl

theorem setChildren_id (n : Bullet) (l : List Bullet) :
    (setChildren n l).id = n.id := by
  cases n with
  | mk i t cs c r ca ua => rfl

theorem setChildren_children (n : Bullet) (l : List Bullet) :
    (setChildren n l).children = l := by
  cases n with
  | mk i t cs c r ca ua => rfl

theorem plugP_false (now : Nat) (C : Ctx) (l : List Bullet) :
    plugP false now C l = plug C l := by
  induction C with
  | here => rfl
  | deeper pre n c post ih =>
      rw [plug_deeper, plugP, ih]
      simp [touchNode_false]

theorem idHit_self (x : Bullet) : idHit x.id x = true := by
  simp [idHit]

theorem idHit_free_forest (tid : Nat) {l : List Bullet} (h : tid ∉ forestIds l) :
    ∀ m ∈ forestNodes l, idHit tid m = false := by
  intro m hm
  simp only [idHit, beq_eq_false_iff_ne, ne_eq]
  exact hit_ne_of_fresh hm h

theorem childHit_free_forest (tid : Nat) {l : List Bullet} (h : tid ∉ forestIds l) :
    ∀ m ∈ forestNodes l, childHit tid m = false := by
  intro m hm
  simp only [childHit, List.any_eq_false]
  intro c hc
  simp only [beq_iff_eq]
  exact hit_ne_of_fresh (children_mem_forestNodes hm hc) h

theorem pathHitFree_idHit (tid : Nat)
    (onF : Option Bullet → Bullet → List Bullet → Option (List Bullet))
    (pt : Bool) (now : Nat) (C : Ctx) (l : List Bullet) (hC : ctxIdFree tid C) :
    pathHitFree ⟨idHit tid, onF, pt, now⟩ C l := by
  induction C with
  | here => trivial
  | deeper pre n c post ih =>
      obtain ⟨hpre, hne, _, hc⟩ := hC
      refine ⟨idHit_free_forest tid hpre, ?_, ih hc⟩
      show idHit tid (setChildren n (plug c l)) = false
      simp only [idHit, setChildren_id, beq_eq_false_iff_ne, ne_eq]
      exact fun he => hne he.symm

/-- Roots of a plugged forest avoid an identifier that is fresh for the
context and for the roots of the plugged list. -/
theorem plug_root_ne (tid : Nat) (c : Ctx) (l : List Bullet) (hC : ctxIdFree tid c)
    (hroot : ∀ r ∈ l, r.id ≠ tid) : ∀ r ∈ plug c l, r.id ≠ tid := by
  cases c with
  | here => exact hroot
  | deeper pre n c' post =>
      obtain ⟨hpre, hne, hpost, _⟩ := hC
      intro r hr
      rw [plug_deeper] at hr
      rcases List.mem_append.mp hr with hr | hr
      · exact hit_ne_of_fresh (mem_forestNodes_of_root hr) hpre
      · rcases List.mem_cons.mp hr with hr | hr
        · subst hr
          rw [setChildren_id]
          exact fun he => hne he.symm
        · exact hit_ne_of_fresh (mem_forestNodes_of_root hr) hpost

theorem pathHitFree_childHit (tid : Nat)
    (onF : Option Bullet → Bullet → List Bullet → Option (List Bullet))
    (pt : Bool) (now : Nat) (C : Ctx) (l : List Bullet) (hC : ctxIdFree tid C)
    (hroot : ∀ r ∈ l, r.id ≠ tid) :
    pathHitFree ⟨childHit tid, onF, pt, now⟩ C l := by
  induction C with
  | here => trivial
  | deeper pre n c post ih =>
      obtain ⟨hpre, hne, hpost, hc⟩ := hC
      refine ⟨childHit_free_forest tid hpre, ?_, ih hc⟩
      show childHit tid (setChildren n (plug c l)) = false
      simp only [childHit, setChildren_children, List.any_eq_false]
      intro r hr
      simp only [beq_iff_eq]
      exact plug_root_ne tid c l hc hroot r hr

theorem not_mem_forestIds_append {tid : Nat} {a b : List Bullet}
    (ha : tid ∉ forestIds a) (hb : tid ∉ forestIds b) : tid ∉ forestIds (a ++ b) := by
  rw [forestIds_append]
  simp only [List.mem_append]
  tauto

theorem not_mem_forestIds_single {tid : Nat} {p : Bullet}
    (hp : tid ∉ bulletIds p) : tid ∉ forestIds [p] := by
  rw [forestIds_cons]
  simp only [List.mem_append]
  intro h
  rcases h with h | h
  · exact hp h
  · simp [forestIds, forestNodes] at h

theorem dropLast_append_getLast_toList (A : List Bullet) :
    A.dropLast ++ A.getLast?.toList = A := by
  induction A with
  | nil => rfl
  | cons a t ih =>
      cases t with
      | nil => rfl
      | cons b t2 =>
          rw [List.dropLast_cons₂, List.getLast?_cons_cons, List.cons_append, ih]

theorem getLast_concat_eq (A : List Bullet) (p : Bullet) :
    (A ++ [p]).getLast? = some p := by
  simp

theorem dropLast_concat_eq (A : List Bullet) (p : Bullet) :
    (A ++ [p]).dropLast = A := by
  simp

theorem ctxIdFree_comp {tid : Nat} {C D : Ctx}
    (hC : ctxIdFree tid C) (hD : ctxIdFree tid D) : ctxIdFree tid (C.comp D) := by
  induction C with
  | here => exact hD
  | deeper pre n c post ih =>
      obtain ⟨h1, h2, h3, h4⟩ := hC
      exact ⟨h1, h2, h3, ih h4⟩

theorem splitFirstById_at {tid : Nat} (x : Bullet) (hx : x.id = tid) :
    ∀ (S1 : List Bullet), (∀ r ∈ S1, r.id ≠ tid) → ∀ (S2 : List Bullet),
      splitFirstById tid (S1 ++ x :: S2) = some (S1, x, S2) := by
  intro S1
  induction S1 with
  | nil =>
      intro _ S2
      rw [List.nil_append, splitFirstById, if_pos hx]
  | cons a t ih =>
      intro h S2
      have ha : a.id ≠ tid := h a (List.mem_cons_self a t)
      rw [List.cons_append, splitFirstById, if_neg ha,
        ih (fun r hr => h r (List.mem_cons_of_mem a hr)) S2]

theorem root_ne_of_fresh {tid : Nat} {l : List Bullet} (h : tid ∉ forestIds l) :
    ∀ r ∈ l, r.id ≠ tid :=
  fun r hr => hit_ne_of_fresh (mem_forestNodes_of_root hr) h

/-- handleIndent at a hole configuration: the target x sits right after
its previous sibling p somewhere in the tree; x moves to the end of p's
children with refreshed updatedAt, and p is force-unfolded. -/
theorem handleIndent_plug (now : Nat) (C : Ctx) (A : List Bullet)
    (pi2 : Nat) (pt2 : String) (pcs : List Bullet) (pc pr : Bool) (pca pua : Option Nat)
    (x : Bullet) (B : List Bullet)
    (hC : ctxIdFree x.id C) (hA : x.id ∉ forestIds A)
    (hp : x.id ∉ bulletIds (.mk pi2 pt2 pcs pc pr pca pua))
    (hxro : x.isReadOnly = false) (hpro : pr = false) :
    handleIndent now x.id (plug C (A ++ .mk pi2 pt2 pcs pc pr pca pua :: x :: B)) =
      plug C (A ++ .mk pi2 pt2 (pcs ++ [touchNode true now x]) false pr pca pua :: B) := by
  have hA' : x.id ∉ forestIds (A ++ [Bullet.mk pi2 pt2 pcs pc pr pca pua]) :=
    not_mem_forestIds_append hA (not_mem_forestIds_single hp)
  have hsplit : A ++ (Bullet.mk pi2 pt2 pcs pc pr pca pua) :: x :: B
      = (A ++ [Bullet.mk pi2 pt2 pcs pc pr pca pua]) ++ x :: B := by simp
  rw [handleIndent, hsplit,
    findBulletAndParent_plug x.id C _ x B rfl hC hA']
  simp only [hxro, Bool.false_eq_true, if_false]
  have hfound : (⟨idHit x.id, indentFound now, false, now⟩ : DfsCfg).onFound
      (A ++ [Bullet.mk pi2 pt2 pcs pc pr pca pua]).getLast? x B =
      some (.mk pi2 pt2 (pcs ++ [touchNode true now x]) false pr pca pua :: B) := by
    rw [getLast_concat_eq]
    show indentFound now (some (.mk pi2 pt2 pcs pc pr pca pua)) x B = _
    simp [indentFound, hpro]
  rw [runDfs_hole_some ⟨idHit x.id, indentFound now, false, now⟩ C _ x B _
    (pathHitFree_idHit x.id (indentFound now) false now C _ hC)
    (idHit_free_forest x.id hA') (idHit_self x) hfound]
  rw [dropLast_concat_eq, plugP_false]

/-- handleAddSibling at a hole configuration: the new bullet lands right
after the target; the parent enclosing the list gets its updatedAt
refreshed. -/
theorem handleAddSibling_plug (now freshId : Nat) (text : String) (C : Ctx)
    (A : List Bullet) (x : Bullet) (B : List Bullet)
    (hC : ctxIdFree x.id C) (hA : x.id ∉ forestIds A) (hxro : x.isReadOnly = false) :
    handleAddSibling now freshId x.id text (plug C (A ++ x :: B)) =
      plugP true now C (A ++ x :: createNewBullet freshId now text :: B) := by
  rw [handleAddSibling]
  have hfound : (⟨idHit x.id, addSiblingFound (createNewBullet freshId now text),
      true, now⟩ : DfsCfg).onFound A.getLast? x B =
      some (A.getLast?.toList ++ x :: createNewBullet freshId now text :: B) := by
    show addSiblingFound (createNewBullet freshId now text) A.getLast? x B = _
    simp [addSiblingFound, hxro]
  rw [runDfs_hole_some _ C A x B _
    (pathHitFree_idHit x.id _ true now C _ hC)
    (idHit_free_forest x.id hA) (idHit_self x) hfound]
  rw [← List.append_assoc, dropLast_append_getLast_toList]

/-- handleDelete at a hole configuration: the target is removed from its
sibling list; the enclosing parent's updatedAt is refreshed. -/
theorem handleDelete_plug (now : Nat) (C : Ctx) (A : List Bullet) (x : Bullet)
    (B : List Bullet) (hC : ctxIdFree x.id C) (hA : x.id ∉ forestIds A)
    (hxro : x.isReadOnly = false) :
    handleDelete now x.id (plug C (A ++ x :: B)) = plugP true now C (A ++ B) := by
  rw [handleDelete, findBulletAndParent_plug x.id C A x B rfl hC hA]
  simp only [hxro, Bool.false_eq_true, if_false]
  have hfound : (⟨idHit x.id, deleteFound, true, now⟩ : DfsCfg).onFound
      A.getLast? x B = some (A.getLast?.toList ++ B) := by
    show deleteFound A.getLast? x B = _
    simp [deleteFound]
  rw [runDfs_hole_some _ C A x B _
    (pathHitFree_idHit x.id _ true now C _ hC)
    (idHit_free_forest x.id hA) (idHit_self x) hfound]
  rw [← List.append_assoc, dropLast_append_getLast_toList]

/-- handleMoveBullet up at a hole configuration: the target (updatedAt
refreshed) swaps with its previous sibling. -/
theorem handleMoveBullet_up_plug (now : Nat) (C : Ctx) (A : List Bullet)
    (p x : Bullet) (B : List Bullet)
    (hC : ctxIdFree x.id C) (hA : x.id ∉ forestIds A) (hp : x.id ∉ bulletIds p)
    (hxro : x.isReadOnly = false) :
    handleMoveBullet now x.id .up (plug C (A ++ p :: x :: B)) =
      plug C (A ++ touchNode true now x :: p :: B) := by
  have hA' : x.id ∉ forestIds (A ++ [p]) :=
    not_mem_forestIds_append hA (not_mem_forestIds_single hp)
  have hsplit : A ++ p :: x :: B = (A ++ [p]) ++ x :: B := by simp
  rw [handleMoveBullet, hsplit, findBulletAndParent_plug x.id C _ x B rfl hC hA']
  simp only [hxro, Bool.false_eq_true, if_false]
  have hfound : (⟨idHit x.id, moveFound now .up, false, now⟩ : DfsCfg).onFound
      (A ++ [p]).getLast? x B = some (touchNode true now x :: p :: B) := by
    rw [getLast_concat_eq]
    show moveFound now .up (some p) x B = _
    simp [moveFound]
  rw [runDfs_hole_some _ C _ x B _
    (pathHitFree_idHit x.id _ false now C _ hC)
    (idHit_free_forest x.id hA') (idHit_self x) hfound]
  rw [dropLast_concat_eq, plugP_false]

/-- handleMoveBullet down at a hole configuration: the target (updatedAt
refreshed) swaps with its next sibling. -/
theorem handleMoveBullet_down_plug (now : Nat) (C : Ctx) (A : List Bullet)
    (x m : Bullet) (B : List Bullet)
    (hC : ctxIdFree x.id C) (hA : x.id ∉ forestIds A) (hxro : x.isReadOnly = false) :
    handleMoveBullet now x.id .down (plug C (A ++ x :: m :: B)) =
      plug C (A ++ m :: touchNode true now x :: B) := by
  rw [handleMoveBullet, findBulletAndParent_plug x.id C A x (m :: B) rfl hC hA]
  simp only [hxro, Bool.false_eq_true, if_false]
  have hfound : (⟨idHit x.id, moveFound now .down, false, now⟩ : DfsCfg).onFound
      A.getLast? x (m :: B) =
      some (A.getLast?.toList ++ m :: touchNode true now x :: B) := by
    show moveFound now .down A.getLast? x (m :: B) = _
    simp [moveFound]
  rw [runDfs_hole_some _ C A x (m :: B) _
    (pathHitFree_idHit x.id _ false now C _ hC)
    (idHit_free_forest x.id hA) (idHit_self x) hfound]
  rw [← List.append_assoc, dropLast_append_getLast_toList, plugP_false]

/-- handleOutdent at a hole configuration: the target x (fields given
explicitly) sits among the children of its parent p; x leaves p's child
list taking the trailing siblings as its own trailing children (with
refreshed updatedAt) and is reinserted right after p in p's own sibling
list. -/
theorem handleOutdent_plug (now : Nat) (C : Ctx) (A' : List Bullet)
    (pi2 : Nat) (pt2 : String) (S1 : List Bullet) (S2 : List Bullet)
    (pc pr : Bool) (pca pua : Option Nat) (B' : List Bullet)
    (xi : Nat) (xt : String) (xcs : List Bullet) (xc xr : Bool) (xca xua : Option Nat)
    (hC : ctxIdFree xi C) (hA : xi ∉ forestIds A') (hB : xi ∉ forestIds B')
    (hS1 : xi ∉ forestIds S1) (hpne : xi ≠ pi2)
    (hxro : xr = false) (hpro : pr = false) :
    handleOutdent now xi
        (plug C (A' ++ .mk pi2 pt2 (S1 ++ .mk xi xt xcs xc xr xca xua :: S2)
          pc pr pca pua :: B')) =
      plug C (A' ++ .mk pi2 pt2 S1 pc pr pca pua ::
        .mk xi xt (xcs ++ S2) xc xr xca (some now) :: B') := by
  subst hxro
  subst hpro
  have hD : ctxIdFree xi
      (C.comp (.deeper A' (.mk pi2 pt2 [] pc false pca pua) .here B')) :=
    ctxIdFree_comp hC ⟨hA, hpne, hB, trivial⟩
  have hplug : plug C (A' ++ Bullet.mk pi2 pt2
        (S1 ++ Bullet.mk xi xt xcs xc false xca xua :: S2) pc false pca pua :: B')
      = plug (C.comp (.deeper A' (.mk pi2 pt2 [] pc false pca pua) .here B'))
          (S1 ++ Bullet.mk xi xt xcs xc false xca xua :: S2) := by
    rw [plug_comp, plug_deeper, plug_here, setChildren_mk]
  rw [handleOutdent, hplug,
    findBulletAndParent_plug xi _ S1 (Bullet.mk xi xt xcs xc false xca xua) S2 rfl hD hS1]
  simp only [Bullet.isReadOnly_mk, Bool.false_eq_true, if_false]
  rw [← hplug]
  have hroot : ∀ r ∈ A' ++ Bullet.mk pi2 pt2
      (S1 ++ Bullet.mk xi xt xcs xc false xca xua :: S2) pc false pca pua :: B',
      r.id ≠ xi := by
    intro r hr
    rcases List.mem_append.mp hr with hr | hr
    · exact hit_ne_of_fresh (mem_forestNodes_of_root hr) hA
    · rcases List.mem_cons.mp hr with hr | hr
      · subst hr
        simpa using fun he => hpne he.symm
      · exact hit_ne_of_fresh (mem_forestNodes_of_root hr) hB
  have hhit : (⟨childHit xi, outdentFound now xi, false, now⟩ : DfsCfg).hit
      (Bullet.mk pi2 pt2 (S1 ++ Bullet.mk xi xt xcs xc false xca xua :: S2)
        pc false pca pua) = true := by
    show childHit xi _ = true
    simp only [childHit, Bullet.children_mk, List.any_eq_true]
    exact ⟨Bullet.mk xi xt xcs xc false xca xua, by simp, by simp⟩
  have hfound : (⟨childHit xi, outdentFound now xi, false, now⟩ : DfsCfg).onFound
      A'.getLast? (Bullet.mk pi2 pt2
        (S1 ++ Bullet.mk xi xt xcs xc false xca xua :: S2) pc false pca pua) B' =
      some (A'.getLast?.toList ++ Bullet.mk pi2 pt2 S1 pc false pca pua ::
        Bullet.mk xi xt (xcs ++ S2) xc false xca (some now) :: B') := by
    show outdentFound now xi A'.getLast?
      (Bullet.mk pi2 pt2 (S1 ++ Bullet.mk xi xt xcs xc false xca xua :: S2)
        pc false pca pua) B' =
      some (A'.getLast?.toList ++ Bullet.mk pi2 pt2 S1 pc false pca pua ::
        Bullet.mk xi xt (xcs ++ S2) xc false xca (some now) :: B')
    rw [outdentFound]
    simp only [Bullet.isReadOnly_mk, Bool.false_eq_true, if_false,
      Bullet.children_mk]
    rw [@splitFirstById_at xi (Bullet.mk xi xt xcs xc false xca xua)
      (by simp) S1 (root_ne_of_fresh hS1) S2]
    simp
  rw [runDfs_hole_some _ C A' _ B' _
    (pathHitFree_childHit xi _ false now C _ hC hroot)
    (childHit_free_forest xi hA) hhit hfound]
  rw [← List.append_assoc, dropLast_append_getLast_toList, plugP_false]

mutual

theorem findBulletB_none (tid : Nat) :
    ∀ b : Bullet, tid ∉ bulletIds b → findBulletB tid b = none
  | .mk i t cs c r ca ua, h => by
      rw [findBulletB]
      rw [if_neg (fun he => (id_ne_of_not_mem_bulletIds h) (by simpa using he))]
      exact findBulletL_none tid cs (children_ids_of_not_mem_bulletIds h)

theorem findBulletL_none (tid : Nat) :
    ∀ l : List Bullet, tid ∉ forestIds l → findBulletL tid l = none
  | [], _ => rfl
  | b :: rest, h => by
      obtain ⟨hb, hrest⟩ := forestIds_sub_cons b rest h
      rw [findBulletL, findBulletB_none tid b hb]
      exact findBulletL_none tid rest hrest

end

theorem findBulletL_skip (tid : Nat) (pre : List Bullet) (rest : List Bullet)
    (h : tid ∉ forestIds pre) :
    findBulletL tid (pre ++ rest) = findBulletL tid rest := by
  induction pre with
  | nil => rfl
  | cons a t ih =>
      obtain ⟨ha, ht⟩ := forestIds_sub_cons a t h
      rw [List.cons_append, findBulletL, findBulletB_none tid a ha, ih ht]

theorem findBulletL_plug (tid : Nat) (C : Ctx) (A : List Bullet) (x : Bullet)
    (B : List Bullet) (hx : x.id = tid) (hC : ctxIdFree tid C)
    (hA : tid ∉ forestIds A) :
    findBulletL tid (plug C (A ++ x :: B)) = some x := by
  induction C with
  | here =>
      rw [plug_here, findBulletL_skip tid A (x :: B) hA, findBulletL]
      cases x with
      | mk i t cs c r ca ua =>
          rw [findBulletB, if_pos (by simpa using hx)]
  | deeper pre n c post ih =>
      obtain ⟨hpre, hne, _, hc⟩ := hC
      rw [plug_deeper, findBulletL_skip tid pre _ hpre, findBulletL]
      cases n with
      | mk ni nt ncs nc nr nca nua =>
          rw [setChildren_mk, findBulletB,
            if_neg (by simpa using fun he => hne he.symm), ih hc]

theorem getElem_concat_mid (A : List Bullet) (p : Bullet) (rest : List Bullet) :
    ((A ++ [p]) ++ rest)[A.length]? = some p := by
  rw [List.append_assoc, List.getElem?_append_right (Nat.le_refl A.length)]
  simp

/-- handleMerge at a hole configuration with a previous sibling: the
previous sibling p absorbs the target's text and children (updatedAt
refreshed, force-unfolded exactly when the target brought children), the
target disappears, the enclosing parent's updatedAt is refreshed, and
focus is requested on p at the offset given by p's original text length. -/
theorem handleMerge_plug (now : Nat) (C : Ctx) (A : List Bullet)
    (pi2 : Nat) (pt2 : String) (pcs : List Bullet) (pc pr : Bool) (pca pua : Option Nat)
    (xi : Nat) (xt : String) (xcs : List Bullet) (xc xr : Bool) (xca xua : Option Nat)
    (B : List Bullet)
    (hC : ctxIdFree xi C) (hA : xi ∉ forestIds A)
    (hp : xi ∉ bulletIds (.mk pi2 pt2 pcs pc pr pca pua))
    (hxro : xr = false) (hpro : pr = false) :
    handleMerge now xi (plug C (A ++ .mk pi2 pt2 pcs pc pr pca pua ::
        .mk xi xt xcs xc xr xca xua :: B)) =
      (plugP true now C (A ++ .mk pi2 (pt2 ++ xt) (pcs ++ xcs)
          (if xcs.isEmpty then pc else false) pr pca (some now) :: B),
        some (some pi2, .offset pt2.length)) := by
  subst hxro
  subst hpro
  have hA' : xi ∉ forestIds (A ++ [Bullet.mk pi2 pt2 pcs pc false pca pua]) :=
    not_mem_forestIds_append hA (not_mem_forestIds_single hp)
  have hsplit : A ++ (Bullet.mk pi2 pt2 pcs pc false pca pua) ::
      (Bullet.mk xi xt xcs xc false xca xua) :: B
      = (A ++ [Bullet.mk pi2 pt2 pcs pc false pca pua]) ++
        (Bullet.mk xi xt xcs xc false xca xua) :: B := by simp
  rw [handleMerge, hsplit,
    findBulletAndParent_plug xi C _ (Bullet.mk xi xt xcs xc false xca xua) B rfl hC hA']
  simp only [Bullet.isReadOnly_mk, Bool.false_eq_true, if_false, List.length_append,
    List.length_cons, List.length_nil]
  have hidx : 0 < A.length + (0 + 1) := by omega
  rw [if_pos hidx]
  have hget : ((A ++ [Bullet.mk pi2 pt2 pcs pc false pca pua]) ++
      (Bullet.mk xi xt xcs xc false xca xua) :: B)[A.length + (0 + 1) - 1]? =
      some (Bullet.mk pi2 pt2 pcs pc false pca pua) := by
    have h1 : A.length + (0 + 1) - 1 = A.length := by omega
    rw [h1, getElem_concat_mid]
  rw [hget]
  simp only [Bullet.isReadOnly_mk, Bool.false_eq_true, if_false]
  have hfound : (⟨idHit xi, mergeFound now, true, now⟩ : DfsCfg).onFound
      (A ++ [Bullet.mk pi2 pt2 pcs pc false pca pua]).getLast?
      (Bullet.mk xi xt xcs xc false xca xua) B =
      some (Bullet.mk pi2 (pt2 ++ xt) (pcs ++ xcs)
        (if xcs.isEmpty then pc else false) false pca (some now) :: B) := by
    rw [getLast_concat_eq]
    show mergeFound now (some (Bullet.mk pi2 pt2 pcs pc false pca pua))
      (Bullet.mk xi xt xcs xc false xca xua) B = _
    simp [mergeFound]
  rw [runDfs_hole_some _ C _ (Bullet.mk xi xt xcs xc false xca xua) B _
    (pathHitFree_idHit xi _ true now C _ hC)
    (idHit_free_forest xi hA') (idHit_self (Bullet.mk xi xt xcs xc false xca xua)) hfound]
  rw [dropLast_concat_eq]
  simp

/-- handleMerge on a first-in-list target with empty text: the target is
removed (delete-forward), the enclosing parent's updatedAt is refreshed,
and focus is requested at the end of the parent (none at the root
level). -/
theorem handleMerge_first_empty_plug (now : Nat) (C : Ctx)
    (xi : Nat) (xcs : List Bullet) (xc xr : Bool) (xca xua : Option Nat)
    (B : List Bullet) (hC : ctxIdFree xi C) (hxro : xr = false) :
    handleMerge now xi (plug C (.mk xi "" xcs xc xr xca xua :: B)) =
      (plugP true now C B,
        some ((holeParent C (.mk xi "" xcs xc xr xca xua :: B)).map Bullet.id,
          .atEnd)) := by
  subst hxro
  have hplug : plug C ((Bullet.mk xi "" xcs xc false xca xua) :: B)
      = plug C ([] ++ (Bullet.mk xi "" xcs xc false xca xua) :: B) := by simp
  rw [handleMerge, hplug,
    findBulletAndParent_plug xi C [] (Bullet.mk xi "" xcs xc false xca xua) B rfl hC
      (by simp [forestIds, forestNodes])]
  simp only [Bullet.isReadOnly_mk, Bool.false_eq_true, if_false, List.length_nil]
  rw [if_neg (Nat.lt_irrefl 0),
    if_pos (show (Bullet.mk xi "" xcs xc false xca xua).text = "" from rfl)]
  have hfound : (⟨idHit xi, deleteFound, true, now⟩ : DfsCfg).onFound
      ([] : List Bullet).getLast? (Bullet.mk xi "" xcs xc false xca xua) B =
      some B := by
    show deleteFound none (Bullet.mk xi "" xcs xc false xca xua) B = _
    simp [deleteFound]
  rw [runDfs_hole_some _ C [] (Bullet.mk xi "" xcs xc false xca xua) B _
    (pathHitFree_idHit xi _ true now C _ hC)
    (by intro m hm; simp [forestNodes] at hm)
    (idHit_self (Bullet.mk xi "" xcs xc false xca xua)) hfound]
  simp

/-- The auto-prune effect at a hole configuration: focus left an
existing, read-write, empty and childless item, which is removed and
reported to the recents index. -/
theorem pruneOnFocusChange_plug (C : Ctx) (A : List Bullet)
    (pid : Nat) (xc xr : Bool) (xca xua : Option Nat) (B : List Bullet)
    (currentId : Option Nat)
    (hC : ctxIdFree pid C) (hA : pid ∉ forestIds A) (hxro : xr = false)
    (hcur : currentId ≠ some pid) :
    pruneOnFocusChange (some pid) currentId
        (plug C (A ++ .mk pid "" [] xc xr xca xua :: B)) =
      (plug C (A ++ B), some pid) := by
  subst hxro
  rw [pruneOnFocusChange]
  rw [if_neg hcur]
  rw [findBulletAndParent_plug pid C A (Bullet.mk pid "" [] xc false xca xua) B rfl hC hA]
  simp only [Bullet.isReadOnly_mk, Bool.false_eq_true, if_false, Bullet.text_mk,
    Bullet.children_mk, List.isEmpty_nil, Bool.and_true]
  rw [if_pos (by decide)]
  have hfound : (⟨idHit pid, deleteFound, false, 0⟩ : DfsCfg).onFound
      A.getLast? (Bullet.mk pid "" [] xc false xca xua) B =
      some (A.getLast?.toList ++ B) := by
    show deleteFound A.getLast? (Bullet.mk pid "" [] xc false xca xua) B = _
    simp [deleteFound]
  rw [runDfs_hole_some _ C A (Bullet.mk pid "" [] xc false xca xua) B _
    (pathHitFree_idHit pid _ false 0 C _ hC)
    (idHit_free_forest pid hA) (idHit_self (Bullet.mk pid "" [] xc false xca xua)) hfound]
  rw [← List.append_assoc, dropLast_append_getLast_toList]
  rfl

/-- handleZoom on a read-write leaf at a hole configuration: exactly one
fresh empty read-write child is created under the leaf, the leaf is
force-unfolded, the zoom target becomes the leaf and focus goes to the
new child. -/
theorem handleZoom_leaf_plug (freshId now : Nat) (C : Ctx) (A : List Bullet)
    (xi : Nat) (xt : String) (xc xr : Bool) (xca xua : Option Nat)
    (B : List Bullet) (oldZoomedId : Option Nat)
    (hC : ctxIdFree xi C) (hA : xi ∉ forestIds A) (hxro : xr = false) :
    handleZoom freshId now (some xi)
        (plug C (A ++ .mk xi xt [] xc xr xca xua :: B)) oldZoomedId =
      ⟨plug C (A ++ .mk xi xt [createNewBullet freshId now ""] false xr xca xua :: B),
        some xi, some freshId⟩ := by
  subst hxro
  rw [handleZoom]
  rw [findBulletL_plug xi C A (Bullet.mk xi xt [] xc false xca xua) B rfl hC hA]
  simp only [Bullet.children_mk, List.isEmpty_nil, Bullet.isReadOnly_mk,
    Bool.not_false, Bool.and_self, if_true]
  have hfound : (⟨idHit xi, zoomAddFound (createNewBullet freshId now ""),
      false, now⟩ : DfsCfg).onFound A.getLast? (Bullet.mk xi xt [] xc false xca xua) B =
      some (A.getLast?.toList ++
        Bullet.mk xi xt [createNewBullet freshId now ""] false false xca xua :: B) := by
    show zoomAddFound (createNewBullet freshId now "") A.getLast?
      (Bullet.mk xi xt [] xc false xca xua) B = _
    simp [zoomAddFound]
  rw [runDfs_hole_some _ C A (Bullet.mk xi xt [] xc false xca xua) B _
    (pathHitFree_idHit xi _ false now C _ hC)
    (idHit_free_forest xi hA) (idHit_self (Bullet.mk xi xt [] xc false xca xua)) hfound]
  rw [← List.append_assoc, dropLast_append_getLast_toList, plugP_false]

theorem setChildren_self (n : Bullet) : setChildren n n.children = n := by
  cases n with
  | mk i t cs c r ca ua => rfl

theorem setChildren_setChildren (n : Bullet) (l l2 : List Bullet) :
    setChildren (setChildren n l) l2 = setChildren n l2 := by
  cases n with
  | mk i t cs c r ca ua => rfl

theorem bullet_mem_forest_cons {n : Bullet} {rest : List Bullet} {m : Bullet}
    (h : m ∈ bulletNodes n) : m ∈ forestNodes (n :: rest) := by
  have h2 : forestNodes (n :: rest) = bulletNodes n ++ forestNodes rest := by
    cases rest <;> simp [forestNodes]
  rw [h2]
  exact List.mem_append_left _ h

mutual

theorem mapBullet_fix (f : Bullet → Bullet) :
    ∀ b : Bullet, (∀ m ∈ bulletNodes b, f m = m) → mapBullet f b = b
  | .mk i t cs c r ca ua, h => by
      rw [mapBullet, h (.mk i t cs c r ca ua) (self_mem_bulletNodes _)]
      rw [mapBullets_fix f cs (fun m hm => h m (mem_bulletNodes_of_children hm))]
      exact setChildren_self _

theorem mapBullets_fix (f : Bullet → Bullet) :
    ∀ l : List Bullet, (∀ m ∈ forestNodes l, f m = m) → mapBullets f l = l
  | [], _ => rfl
  | b :: rest, h => by
      rw [mapBullets,
        mapBullet_fix f b (fun m hm => h m (bullet_mem_forest_cons hm)),
        mapBullets_fix f rest (fun m hm => h m (forest_rest_of_cons hm))]

end

theorem mapBullets_append (f : Bullet → Bullet) (a b : List Bullet) :
    mapBullets f (a ++ b) = mapBullets f a ++ mapBullets f b := by
  induction a with
  | nil => rfl
  | cons x xs ih => rw [List.cons_append, mapBullets, mapBullets, ih, List.cons_append]

theorem mapBullets_plug (f : Bullet → Bullet) (tid : Nat) (C : Ctx)
    (A : List Bullet) (x : Bullet) (B : List Bullet)
    (hfix : ∀ m : Bullet, m.id ≠ tid → f m = m)
    (hC : ctxIdFree tid C) (hA : tid ∉ forestIds A) (hB : tid ∉ forestIds B) :
    mapBullets f (plug C (A ++ x :: B)) = plug C (A ++ mapBullet f x :: B) := by
  have hfixAll : ∀ (l : List Bullet), tid ∉ forestIds l →
      ∀ m ∈ forestNodes l, f m = m :=
    fun l hl m hm => hfix m (hit_ne_of_fresh hm hl)
  induction C with
  | here =>
      rw [plug_here, plug_here, mapBullets_append, mapBullets,
        mapBullets_fix f A (hfixAll A hA), mapBullets_fix f B (hfixAll B hB)]
  | deeper pre n c post ih =>
      obtain ⟨hpre, hne, hpost, hc⟩ := hC
      rw [plug_deeper, plug_deeper, mapBullets_append,
        mapBullets_fix f pre (hfixAll pre hpre), mapBullets]
      rw [mapBullets_fix f post (hfixAll post hpost)]
      have hnode : mapBullet f (setChildren n (plug c (A ++ x :: B))) =
          setChildren n (plug c (A ++ mapBullet f x :: B)) := by
        cases n with
        | mk ni nt ncs nc nr nca nua =>
            rw [setChildren_mk, mapBullet]
            rw [hfix (Bullet.mk ni nt (plug c (A ++ x :: B)) nc nr nca nua)
              (by simpa using fun he => hne he.symm)]
            rw [ih hc, setChildren_mk, setChildren_mk]
      rw [hnode]


/-- handleUpdate at a hole configuration: the target receives the patch,
its updatedAt is refreshed exactly when a key other than isCollapsed is
patched, and everything else is untouched. -/
theorem handleUpdate_plug (now : Nat) (p : BulletPatch) (C : Ctx) (A : List Bullet)
    (xi : Nat) (xt : String) (xcs : List Bullet) (xc xr : Bool) (xca xua : Option Nat)
    (B : List Bullet)
    (hC : ctxIdFree xi C) (hA : xi ∉ forestIds A) (hB : xi ∉ forestIds B)
    (hchild : xi ∉ forestIds xcs) (hxro : xr = false) :
    handleUpdate now xi p (plug C (A ++ .mk xi xt xcs xc xr xca xua :: B)) =
      plug C (A ++ .mk xi (p.text.getD xt) xcs (p.isCollapsed.getD xc) xr xca
        (if p.text.isSome then some now else xua) :: B) := by
  subst hxro
  rw [handleUpdate]
  rw [findBulletAndParent_plug xi C A (Bullet.mk xi xt xcs xc false xca xua) B rfl hC hA]
  simp only [Bullet.isReadOnly_mk, Bool.false_eq_true, if_false]
  have hfix : ∀ m : Bullet, m.id ≠ xi →
      (fun b => if b.id = xi then
        match applyPatch p b with
        | .mk i t cs c r ca ua => Bullet.mk i t cs c r ca
            (if p.text.isSome then some now else ua)
      else b) m = m := by
    intro m hm
    simp only [if_neg hm]
  rw [mapBullets_plug _ xi C A (Bullet.mk xi xt xcs xc false xca xua) B hfix hC hA hB]
  have hnode : mapBullet (fun b => if b.id = xi then
      match applyPatch p b with
      | .mk i t cs c r ca ua => Bullet.mk i t cs c r ca
          (if p.text.isSome then some now else ua)
      else b) (Bullet.mk xi xt xcs xc false xca xua) =
      Bullet.mk xi (p.text.getD xt) xcs (p.isCollapsed.getD xc) false xca
        (if p.text.isSome then some now else xua) := by
    rw [mapBullet]
    simp only [Bullet.id_mk, eq_self_iff_true, if_true, applyPatch]
    rw [mapBullets_fix _ xcs (fun m hm => by
      simp only [if_neg (hit_ne_of_fresh hm hchild)])]
    rw [setChildren_mk]
  rw [hnode]

/-!  Lemmas about handleFoldAll: the search phase fixes every subtree
not containing the target and rewrites the target node in place. -/

mutual

theorem fafNode_fix (tid : Nat) (col : Bool) :
    ∀ b : Bullet, tid ∉ bulletIds b → fafNode tid col b = b
  | .mk i t cs c r ca ua, h => by
      rw [fafNode,
        if_neg (show ¬ i = tid from fun he =>
          id_ne_of_not_mem_bulletIds h (by simpa using he)),
        findAndFold_fix tid col cs (children_ids_of_not_mem_bulletIds h)]
      exact ite_self _

theorem findAndFold_fix (tid : Nat) (col : Bool) :
    ∀ l : List Bullet, tid ∉ forestIds l → findAndFold tid col l = l
  | [], _ => rfl
  | b :: rest, h => by
      obtain ⟨hb, hrest⟩ := forestIds_sub_cons b rest h
      rw [findAndFold, fafNode_fix tid col b hb, findAndFold_fix tid col rest hrest]

end

theorem findAndFold_append (tid : Nat) (col : Bool) (a b : List Bullet) :
    findAndFold tid col (a ++ b) = findAndFold tid col a ++ findAndFold tid col b := by
  induction a with
  | nil => rfl
  | cons x xs ih => rw [List.cons_append, findAndFold, findAndFold, ih, List.cons_append]

theorem append_cons_isEmpty_false (A : List Bullet) (x : Bullet) (B : List Bullet) :
    (A ++ x :: B).isEmpty = false := by
  cases A <;> rfl

theorem plug_isEmpty_false (c : Ctx) (l : List Bullet) (h : l.isEmpty = false) :
    (plug c l).isEmpty = false := by
  cases c with
  | here => exact h
  | deeper pre n c2 post => rw [plug_deeper]; cases pre <;> rfl

/-- findAndFold at a hole configuration: everything outside the hole is
untouched; the target node is rewritten in place by the fafNode step. -/
theorem findAndFold_plug (tid : Nat) (col : Bool) (C : Ctx) (A : List Bullet)
    (x : Bullet) (B : List Bullet) (hC : ctxIdFree tid C)
    (hA : tid ∉ forestIds A) (hB : tid ∉ forestIds B) :
    findAndFold tid col (plug C (A ++ x :: B)) =
      plug C (A ++ fafNode tid col x :: B) := by
  induction C with
  | here =>
      rw [plug_here, plug_here, findAndFold_append,
        findAndFold_fix tid col A hA, findAndFold,
        findAndFold_fix tid col B hB]
  | deeper pre n c post ih =>
      obtain ⟨hpre, hne, hpost, hc⟩ := hC
      rw [plug_deeper, plug_deeper, findAndFold_append,
        findAndFold_fix tid col pre hpre, findAndFold,
        findAndFold_fix tid col post hpost]
      cases n with
      | mk ni nt ncs nc nr nca nua =>
          rw [setChildren_mk, setChildren_mk, fafNode,
            if_neg (show ¬ ni = tid by simpa using fun he => hne he.symm),
            if_neg (show ¬ ((plug c (A ++ x :: B)).isEmpty = true) by
              rw [plug_isEmpty_false c _ (append_cons_isEmpty_false A x B)]
              exact Bool.false_ne_true),
            ih hc]

/-!  No-op lemmas: a target missing from the forest leaves every
mutator's result unchanged. -/

theorem forestIds_nil : forestIds ([] : List Bullet) = [] := rfl

theorem childHit_free_hole (tid : Nat) (A : List Bullet) (x : Bullet) (B : List Bullet)
    (hA : tid ∉ forestIds A) (hB : tid ∉ forestIds B)
    (hx : tid ∉ forestIds x.children) :
    ∀ m ∈ forestNodes (A ++ x :: B), childHit tid m = false := by
  intro m hm
  rw [forestNodes_append] at hm
  rcases List.mem_append.mp hm with hm | hm
  · exact childHit_free_forest tid hA m hm
  · have hxB : forestNodes (x :: B) = bulletNodes x ++ forestNodes B := by
      cases B <;> simp [forestNodes]
    rw [hxB] at hm
    rcases List.mem_append.mp hm with hm | hm
    · cases x with
      | mk xi xt xcs xc xr xca xua =>
          rw [bulletNodes] at hm
          rcases List.mem_cons.mp hm with hm | hm
          · subst hm
            simp only [childHit, Bullet.children_mk, List.any_eq_false]
            intro c hc
            simpa using hit_ne_of_fresh (mem_forestNodes_of_root hc) hx
          · exact childHit_free_forest tid hx m hm
    · exact childHit_free_forest tid hB m hm

/-- Outdent of a root-level item is a no-op: no node of the forest has
the target among its direct children. -/
theorem handleOutdent_root_noop (now : Nat) (A : List Bullet) (x : Bullet)
    (B : List Bullet) (hA : x.id ∉ forestIds A) (hB : x.id ∉ forestIds B)
    (hx : x.id ∉ forestIds x.children) (hxro : x.isReadOnly = false) :
    handleOutdent now x.id (A ++ x :: B) = A ++ x :: B := by
  have h1 : findBulletAndParent x.id (A ++ x :: B) =
      some ⟨x, none, A ++ x :: B, A.length⟩ :=
    findBulletAndParent_plug x.id .here A x B rfl trivial hA
  rw [handleOutdent, h1]
  simp only [hxro, Bool.false_eq_true, if_false]
  exact runDfs_notFound _ _ (childHit_free_hole x.id A x B hA hB hx)

theorem handleAddSibling_notFound (now freshId tid : Nat) (text : String)
    (bullets : List Bullet) (h : tid ∉ forestIds bullets) :
    handleAddSibling now freshId tid text bullets = bullets := by
  rw [handleAddSibling]
  exact runDfs_notFound _ _ (idHit_free_forest tid h)

theorem handleDelete_notFound (now tid : Nat) (bullets : List Bullet)
    (h : tid ∉ forestIds bullets) : handleDelete now tid bullets = bullets := by
  rw [handleDelete, findBulletAndParent_none tid bullets h]

theorem handleIndent_notFound (now tid : Nat) (bullets : List Bullet)
    (h : tid ∉ forestIds bullets) : handleIndent now tid bullets = bullets := by
  rw [handleIndent, findBulletAndParent_none tid bullets h]

theorem handleOutdent_notFound (now tid : Nat) (bullets : List Bullet)
    (h : tid ∉ forestIds bullets) : handleOutdent now tid bullets = bullets := by
  rw [handleOutdent, findBulletAndParent_none tid bullets h]

theorem handleMoveBullet_notFound (now tid : Nat) (dir : MoveDir)
    (bullets : List Bullet) (h : tid ∉ forestIds bullets) :
    handleMoveBullet now tid dir bullets = bullets := by
  rw [handleMoveBullet, findBulletAndParent_none tid bullets h]

theorem handleMerge_notFound (now tid : Nat) (bullets : List Bullet)
    (h : tid ∉ forestIds bullets) : handleMerge now tid bullets = (bullets, none) := by
  rw [handleMerge, findBulletAndParent_none tid bullets h]

theorem handleUpdate_notFound (now tid : Nat) (p : BulletPatch)
    (bullets : List Bullet) (h : tid ∉ forestIds bullets) :
    handleUpdate now tid p bullets = bullets := by
  rw [handleUpdate, findBulletAndParent_none tid bullets h]
  exact mapBullets_fix _ bullets (fun m hm => by
    simp only [if_neg (hit_ne_of_fresh hm h)])

theorem handleFoldAll_notFound (tid : Nat) (col : Bool) (bullets : List Bullet)
    (h : tid ∉ forestIds bullets) : handleFoldAll tid col bullets = bullets := by
  rw [handleFoldAll]
  exact findAndFold_fix tid col bullets h

theorem pruneOnFocusChange_notFound (pid : Nat) (currentId : Option Nat)
    (bullets : List Bullet) (h : pid ∉ forestIds bullets) :
    pruneOnFocusChange (some pid) currentId bullets = (bullets, none) := by
  rw [pruneOnFocusChange, findBulletAndParent_none pid bullets h]
  by_cases hcur : currentId = some pid <;> simp [hcur]

/-!  No-op lemmas: a read-only target (or, where a mutator consults one,
a read-only ancestor or neighbour) leaves the result unchanged. -/

theorem handleAddSibling_readonly (now freshId : Nat) (text : String) (C : Ctx)
    (A : List Bullet) (x : Bullet) (B : List Bullet)
    (hC : ctxIdFree x.id C) (hA : x.id ∉ forestIds A) (hxro : x.isReadOnly = true) :
    handleAddSibling now freshId x.id text (plug C (A ++ x :: B)) =
      plug C (A ++ x :: B) := by
  rw [handleAddSibling]
  exact runDfs_hole_none _ C A x B
    (pathHitFree_idHit x.id _ true now C _ hC)
    (idHit_free_forest x.id hA) (idHit_self x)
    (by show addSiblingFound _ A.getLast? x B = none; simp [addSiblingFound, hxro])

theorem handleDelete_readonly (now : Nat) (C : Ctx) (A : List Bullet) (x : Bullet)
    (B : List Bullet) (hC : ctxIdFree x.id C) (hA : x.id ∉ forestIds A)
    (hxro : x.isReadOnly = true) :
    handleDelete now x.id (plug C (A ++ x :: B)) = plug C (A ++ x :: B) := by
  rw [handleDelete, findBulletAndParent_plug x.id C A x B rfl hC hA]
  simp [hxro]

theorem handleIndent_readonly (now : Nat) (C : Ctx) (A : List Bullet) (x : Bullet)
    (B : List Bullet) (hC : ctxIdFree x.id C) (hA : x.id ∉ forestIds A)
    (hxro : x.isReadOnly = true) :
    handleIndent now x.id (plug C (A ++ x :: B)) = plug C (A ++ x :: B) := by
  rw [handleIndent, findBulletAndParent_plug x.id C A x B rfl hC hA]
  simp [hxro]

theorem handleOutdent_readonly (now : Nat) (C : Ctx) (A : List Bullet) (x : Bullet)
    (B : List Bullet) (hC : ctxIdFree x.id C) (hA : x.id ∉ forestIds A)
    (hxro : x.isReadOnly = true) :
    handleOutdent now x.id (plug C (A ++ x :: B)) = plug C (A ++ x :: B) := by
  rw [handleOutdent, findBulletAndParent_plug x.id C A x B rfl hC hA]
  simp [hxro]

theorem handleMoveBullet_readonly (now : Nat) (dir : MoveDir) (C : Ctx)
    (A : List Bullet) (x : Bullet) (B : List Bullet)
    (hC : ctxIdFree x.id C) (hA : x.id ∉ forestIds A) (hxro : x.isReadOnly = true) :
    handleMoveBullet now x.id dir (plug C (A ++ x :: B)) = plug C (A ++ x :: B) := by
  rw [handleMoveBullet, findBulletAndParent_plug x.id C A x B rfl hC hA]
  simp [hxro]

theorem handleMerge_readonly (now : Nat) (C : Ctx) (A : List Bullet) (x : Bullet)
    (B : List Bullet) (hC : ctxIdFree x.id C) (hA : x.id ∉ forestIds A)
    (hxro : x.isReadOnly = true) :
    handleMerge now x.id (plug C (A ++ x :: B)) = (plug C (A ++ x :: B), none) := by
  rw [handleMerge, findBulletAndParent_plug x.id C A x B rfl hC hA]
  simp [hxro]

theorem handleUpdate_readonly (now : Nat) (p : BulletPatch) (C : Ctx)
    (A : List Bullet) (x : Bullet) (B : List Bullet)
    (hC : ctxIdFree x.id C) (hA : x.id ∉ forestIds A) (hxro : x.isReadOnly = true) :
    handleUpdate now x.id p (plug C (A ++ x :: B)) = plug C (A ++ x :: B) := by
  rw [handleUpdate, findBulletAndParent_plug x.id C A x B rfl hC hA]
  simp [hxro]

theorem pruneOnFocusChange_readonly (C : Ctx) (A : List Bullet) (x : Bullet)
    (B : List Bullet) (currentId : Option Nat)
    (hC : ctxIdFree x.id C) (hA : x.id ∉ forestIds A)
    (hcur : currentId ≠ some x.id) (hxro : x.isReadOnly = true) :
    pruneOnFocusChange (some x.id) currentId (plug C (A ++ x :: B)) =
      (plug C (A ++ x :: B), none) := by
  rw [pruneOnFocusChange, if_neg hcur,
    findBulletAndParent_plug x.id C A x B rfl hC hA]
  simp [hxro]

/-!  No-op lemmas: structurally meaningless requests (no previous
sibling to indent under or merge into, no neighbour to swap with) leave
the result unchanged, as do read-only ancestors and neighbours the
splice would have to rewrite. -/

theorem handleIndent_first (now : Nat) (C : Ctx) (x : Bullet) (B : List Bullet)
    (hC : ctxIdFree x.id C) (hxro : x.isReadOnly = false) :
    handleIndent now x.id (plug C (x :: B)) = plug C (x :: B) := by
  have hplug : plug C (x :: B) = plug C ([] ++ x :: B) := rfl
  rw [handleIndent, hplug, findBulletAndParent_plug x.id C [] x B rfl hC
    (by simp [forestIds, forestNodes])]
  simp only [hxro, Bool.false_eq_true, if_false]
  exact runDfs_hole_none _ C [] x B
    (pathHitFree_idHit x.id _ false now C _ hC)
    (by intro m hm; simp [forestNodes] at hm) (idHit_self x)
    (by show indentFound now ([] : List Bullet).getLast? x B = none; rfl)

theorem handleMoveBullet_up_first (now : Nat) (C : Ctx) (x : Bullet)
    (B : List Bullet) (hC : ctxIdFree x.id C) (hxro : x.isReadOnly = false) :
    handleMoveBullet now x.id .up (plug C (x :: B)) = plug C (x :: B) := by
  have hplug : plug C (x :: B) = plug C ([] ++ x :: B) := rfl
  rw [handleMoveBullet, hplug, findBulletAndParent_plug x.id C [] x B rfl hC
    (by simp [forestIds, forestNodes])]
  simp only [hxro, Bool.false_eq_true, if_false]
  exact runDfs_hole_none _ C [] x B
    (pathHitFree_idHit x.id _ false now C _ hC)
    (by intro m hm; simp [forestNodes] at hm) (idHit_self x)
    (by show moveFound now .up ([] : List Bullet).getLast? x B = none; rfl)

theorem handleMoveBullet_down_last (now : Nat) (C : Ctx) (A : List Bullet)
    (x : Bullet) (hC : ctxIdFree x.id C) (hA : x.id ∉ forestIds A)
    (hxro : x.isReadOnly = false) :
    handleMoveBullet now x.id .down (plug C (A ++ [x])) = plug C (A ++ [x]) := by
  rw [handleMoveBullet, findBulletAndParent_plug x.id C A x [] rfl hC hA]
  simp only [hxro, Bool.false_eq_true, if_false]
  exact runDfs_hole_none _ C A x []
    (pathHitFree_idHit x.id _ false now C _ hC)
    (idHit_free_forest x.id hA) (idHit_self x)
    (by show moveFound now .down A.getLast? x [] = none; rfl)

theorem handleMerge_first_nonempty (now : Nat) (C : Ctx) (x : Bullet)
    (B : List Bullet) (hC : ctxIdFree x.id C) (hxro : x.isReadOnly = false)
    (ht : ¬ x.text = "") :
    handleMerge now x.id (plug C (x :: B)) = (plug C (x :: B), none) := by
  have hplug : plug C (x :: B) = plug C ([] ++ x :: B) := rfl
  rw [handleMerge, hplug, findBulletAndParent_plug x.id C [] x B rfl hC
    (by simp [forestIds, forestNodes])]
  simp only [hxro, Bool.false_eq_true, if_false, List.length_nil]
  rw [if_neg (Nat.lt_irrefl 0), if_neg ht]

theorem handleIndent_prev_readonly (now : Nat) (C : Ctx) (A : List Bullet)
    (p x : Bullet) (B : List Bullet)
    (hC : ctxIdFree x.id C) (hA : x.id ∉ forestIds A) (hp : x.id ∉ bulletIds p)
    (hxro : x.isReadOnly = false) (hpro : p.isReadOnly = true) :
    handleIndent now x.id (plug C (A ++ p :: x :: B)) =
      plug C (A ++ p :: x :: B) := by
  have hA' : x.id ∉ forestIds (A ++ [p]) :=
    not_mem_forestIds_append hA (not_mem_forestIds_single hp)
  have hsplit : A ++ p :: x :: B = (A ++ [p]) ++ x :: B := by simp
  rw [handleIndent, hsplit, findBulletAndParent_plug x.id C _ x B rfl hC hA']
  simp only [hxro, Bool.false_eq_true, if_false]
  exact runDfs_hole_none _ C _ x B
    (pathHitFree_idHit x.id _ false now C _ hC)
    (idHit_free_forest x.id hA') (idHit_self x)
    (by
      rw [getLast_concat_eq]
      show indentFound now (some p) x B = none
      cases p with
      | mk pi2 pt2 pcs pc pr pca pua => simp [indentFound, hpro])

theorem handleMerge_prev_readonly (now : Nat) (C : Ctx) (A : List Bullet)
    (p x : Bullet) (B : List Bullet)
    (hC : ctxIdFree x.id C) (hA : x.id ∉ forestIds A) (hp : x.id ∉ bulletIds p)
    (hxro : x.isReadOnly = false) (hpro : p.isReadOnly = true) :
    handleMerge now x.id (plug C (A ++ p :: x :: B)) =
      (plug C (A ++ p :: x :: B), none) := by
  have hA' : x.id ∉ forestIds (A ++ [p]) :=
    not_mem_forestIds_append hA (not_mem_forestIds_single hp)
  have hsplit : A ++ p :: x :: B = (A ++ [p]) ++ x :: B := by simp
  rw [handleMerge, hsplit, findBulletAndParent_plug x.id C _ x B rfl hC hA']
  simp only [hxro, Bool.false_eq_true, if_false, List.length_append,
    List.length_singleton]
  rw [if_pos (Nat.succ_pos A.length), Nat.add_sub_cancel,
    getElem_concat_mid A p (x :: B)]
  simp [hpro]

theorem handleOutdent_parent_readonly (now : Nat) (C : Ctx) (A' : List Bullet)
    (pi2 : Nat) (pt2 : String) (S1 : List Bullet) (S2 : List Bullet)
    (pc : Bool) (pca pua : Option Nat) (B' : List Bullet)
    (x : Bullet)
    (hC : ctxIdFree x.id C) (hA : x.id ∉ forestIds A') (hB : x.id ∉ forestIds B')
    (hS1 : x.id ∉ forestIds S1)
    (hpne : x.id ≠ pi2) (hxro : x.isReadOnly = false) :
    handleOutdent now x.id
        (plug C (A' ++ .mk pi2 pt2 (S1 ++ x :: S2) pc true pca pua :: B')) =
      plug C (A' ++ .mk pi2 pt2 (S1 ++ x :: S2) pc true pca pua :: B') := by
  have hD : ctxIdFree x.id
      (C.comp (.deeper A' (.mk pi2 pt2 [] pc true pca pua) .here B')) :=
    ctxIdFree_comp hC ⟨hA, hpne, hB, trivial⟩
  have hplug : plug C (A' ++ Bullet.mk pi2 pt2 (S1 ++ x :: S2) pc true pca pua :: B')
      = plug (C.comp (.deeper A' (.mk pi2 pt2 [] pc true pca pua) .here B'))
          (S1 ++ x :: S2) := by
    rw [plug_comp, plug_deeper, plug_here, setChildren_mk]
  rw [handleOutdent, hplug,
    findBulletAndParent_plug x.id _ S1 x S2 rfl hD hS1]
  simp only [hxro, Bool.false_eq_true, if_false]
  rw [← hplug]
  have hhit : childHit x.id (Bullet.mk pi2 pt2 (S1 ++ x :: S2) pc true pca pua)
      = true := by
    simp only [childHit, Bullet.children_mk, List.any_eq_true]
    exact ⟨x, by simp, by simp⟩
  have hroot : ∀ r2 ∈ A' ++ Bullet.mk pi2 pt2 (S1 ++ x :: S2) pc true pca pua :: B',
      r2.id ≠ x.id := by
    intro r2 hr
    rcases List.mem_append.mp hr with hr | hr
    · exact hit_ne_of_fresh (mem_forestNodes_of_root hr) hA
    · rcases List.mem_cons.mp hr with hr | hr
      · subst hr
        simpa using fun he => hpne he.symm
      · exact hit_ne_of_fresh (mem_forestNodes_of_root hr) hB
  rw [runDfs_hole_none _ C A' _ B'
    (pathHitFree_childHit x.id _ false now C _ hC hroot)
    (childHit_free_forest x.id hA) hhit
    (by
      show outdentFound now x.id A'.getLast?
        (Bullet.mk pi2 pt2 (S1 ++ x :: S2) pc true pca pua) B' = none
      rw [outdentFound]
      simp)]

/-!  Lemmas for the auto-prune effect: identifier freshness survives
plugging, and items with text or children are never pruned. -/

theorem bulletIds_mk (i : Nat) (t : String) (cs : List Bullet) (c r : Bool)
    (ca ua : Option Nat) :
    bulletIds (.mk i t cs c r ca ua) = i :: forestIds cs := by
  simp [bulletIds, bulletNodes, forestIds]

theorem forestIds_plug_free (tid : Nat) (C : Ctx) (l : List Bullet)
    (hC : ctxIdFree tid C) (hl : tid ∉ forestIds l) :
    tid ∉ forestIds (plug C l) := by
  induction C with
  | here => exact hl
  | deeper pre n c post ih =>
      obtain ⟨hpre, hne, hpost, hc⟩ := hC
      rw [plug_deeper]
      cases n with
      | mk ni nt ncs nc nr nca nua =>
          rw [setChildren_mk, forestIds_append, forestIds_cons, bulletIds_mk]
          intro hmem
          rcases List.mem_append.mp hmem with h | h
          · exact hpre h
          rcases List.mem_append.mp h with h | h
          · rcases List.mem_cons.mp h with h | h
            · exact hne (by simpa using h)
            · exact ih hc h
          · exact hpost h

theorem pruneOnFocusChange_keep (C : Ctx) (A : List Bullet) (x : Bullet)
    (B : List Bullet) (currentId : Option Nat)
    (hC : ctxIdFree x.id C) (hA : x.id ∉ forestIds A)
    (hcur : currentId ≠ some x.id)
    (hkeep : ¬ x.text = "" ∨ ¬ x.children = []) :
    pruneOnFocusChange (some x.id) currentId (plug C (A ++ x :: B)) =
      (plug C (A ++ x :: B), none) := by
  rw [pruneOnFocusChange, if_neg hcur,
    findBulletAndParent_plug x.id C A x B rfl hC hA]
  cases hro : x.isReadOnly with
  | true => simp [hro]
  | false =>
      have hcond : (decide (x.text = "") && x.children.isEmpty) = false := by
        rcases hkeep with h | h
        · simp [h]
        · simp [List.isEmpty_iff, h]
      simp only [Bool.false_eq_true, if_false, hcond]
      exact ite_self _

/-!  Lemmas for the import pipeline: migration keeps identifiers,
regeneration hands out the supply values in pre-order, and the merge
step appends at the root or under the chosen target. -/

mutual

theorem migrateBullet_ids (now : Nat) :
    ∀ b : Bullet, bulletIds (migrateBullet now b) = bulletIds b
  | .mk i t cs c r ca ua => by
      rw [migrateBullet, bulletIds_mk, bulletIds_mk, migrateBullets_ids now cs]

theorem migrateBullets_ids (now : Nat) :
    ∀ l : List Bullet, forestIds (migrateBullets now l) = forestIds l
  | [] => rfl
  | b :: rest => by
      rw [migrateBullets, forestIds_cons, forestIds_cons,
        migrateBullet_ids now b, migrateBullets_ids now rest]

end

theorem forestNodes_length_eq_of_ids {a b : List Bullet}
    (h : forestIds a = forestIds b) :
    (forestNodes a).length = (forestNodes b).length := by
  have ha : (forestNodes a).length = (forestIds a).length := by
    simp [forestIds]
  have hb : (forestNodes b).length = (forestIds b).length := by
    simp [forestIds]
  rw [ha, hb, h]

mutual

theorem regenerateBullet_spec :
    ∀ (s : Nat) (b : Bullet),
      (regenerateBullet s b).2 = s + (bulletNodes b).length ∧
      bulletIds (regenerateBullet s b).1 = List.range' s (bulletNodes b).length
  | s, .mk i t cs c r ca ua => by
      obtain ⟨h2, h1⟩ := regenerateIdsGo_spec (s + 1) cs
      rcases hgo : regenerateIdsGo (s + 1) cs with ⟨cs', s'⟩
      rw [hgo] at h1 h2
      rw [regenerateBullet, hgo]
      simp only [bulletNodes, List.length_cons]
      constructor
      · show s' = s + ((forestNodes cs).length + 1)
        omega
      · show bulletIds (.mk s t cs' c r ca ua) = _
        rw [bulletIds_mk, h1, List.range'_succ]

theorem regenerateIdsGo_spec :
    ∀ (s : Nat) (l : List Bullet),
      (regenerateIdsGo s l).2 = s + (forestNodes l).length ∧
      forestIds (regenerateIdsGo s l).1 = List.range' s (forestNodes l).length
  | s, [] => by
      rw [regenerateIdsGo]
      exact ⟨rfl, rfl⟩
  | s, b :: rest => by
      obtain ⟨hb2, hb1⟩ := regenerateBullet_spec s b
      rcases hgb : regenerateBullet s b with ⟨b', s'⟩
      rw [hgb] at hb1 hb2
      have hs1 : s' = s + (bulletNodes b).length := hb2
      have hib : bulletIds b' = List.range' s (bulletNodes b).length := hb1
      obtain ⟨hr2, hr1⟩ := regenerateIdsGo_spec s' rest
      rcases hgr : regenerateIdsGo s' rest with ⟨rest', s''⟩
      rw [hgr] at hr1 hr2
      have hs2 : s'' = s' + (forestNodes rest).length := hr2
      have hir : forestIds rest' = List.range' s' (forestNodes rest).length := hr1
      rw [regenerateIdsGo, hgb]
      dsimp only
      rw [hgr]
      dsimp only
      have hlen : forestNodes (b :: rest) = bulletNodes b ++ forestNodes rest := by
        cases rest <;> simp [forestNodes]
      constructor
      · show s'' = s + (forestNodes (b :: rest)).length
        rw [hlen]
        simp only [List.length_append]
        omega
      · show forestIds (b' :: rest') = _
        rw [forestIds_cons, hib, hir, hs1, hlen, List.length_append]
        have := List.range'_append s (bulletNodes b).length (forestNodes rest).length 1
        simp only [one_mul] at this
        rw [this, Nat.add_comm]

end

theorem regenerateIds_ids (s : Nat) (nodes : List Bullet) :
    forestIds (regenerateIds s nodes) = List.range' s (forestNodes nodes).length := by
  rw [regenerateIds]
  exact (regenerateIdsGo_spec s nodes).2

mutual

theorem addToTargetNode_fix (imported : List Bullet) (tid : Nat) :
    ∀ b : Bullet, tid ∉ bulletIds b → addToTargetNode imported tid b = b
  | .mk i t cs c r ca ua, h => by
      rw [addToTargetNode,
        if_neg (show ¬ i = tid from fun he =>
          id_ne_of_not_mem_bulletIds h (by simpa using he)),
        addToTarget_fix imported tid cs (children_ids_of_not_mem_bulletIds h)]

theorem addToTarget_fix (imported : List Bullet) (tid : Nat) :
    ∀ l : List Bullet, tid ∉ forestIds l → addToTarget imported tid l = l
  | [], _ => rfl
  | b :: rest, h => by
      obtain ⟨hb, hrest⟩ := forestIds_sub_cons b rest h
      rw [addToTarget, addToTargetNode_fix imported tid b hb,
        addToTarget_fix imported tid rest hrest]

end

theorem addToTarget_append (imported : List Bullet) (tid : Nat) (a b : List Bullet) :
    addToTarget imported tid (a ++ b) =
      addToTarget imported tid a ++ addToTarget imported tid b := by
  induction a with
  | nil => rfl
  | cons x xs ih => rw [List.cons_append, addToTarget, addToTarget, ih, List.cons_append]

/-- addToTarget at a hole configuration: only the target node is
rewritten, receiving the imported forest as trailing children. -/
theorem addToTarget_plug (imported : List Bullet) (tid : Nat) (C : Ctx)
    (A : List Bullet) (x : Bullet) (B : List Bullet) (hC : ctxIdFree tid C)
    (hA : tid ∉ forestIds A) (hB : tid ∉ forestIds B) :
    addToTarget imported tid (plug C (A ++ x :: B)) =
      plug C (A ++ addToTargetNode imported tid x :: B) := by
  induction C with
  | here =>
      rw [plug_here, plug_here, addToTarget_append,
        addToTarget_fix imported tid A hA, addToTarget,
        addToTarget_fix imported tid B hB]
  | deeper pre n c post ih =>
      obtain ⟨hpre, hne, hpost, hc⟩ := hC
      rw [plug_deeper, plug_deeper, addToTarget_append,
        addToTarget_fix imported tid pre hpre, addToTarget,
        addToTarget_fix imported tid post hpost]
      cases n with
      | mk ni nt ncs nc nr nca nua =>
          rw [setChildren_mk, setChildren_mk, addToTargetNode,
            if_neg (show ¬ ni = tid by simpa using fun he => hne he.symm),
            ih hc]

/-!  The claims. -/

/-- C1: outdent of a non-read-only item x with a read-write parent p
splits p's children at x — p keeps the leading siblings, x takes the
trailing siblings as its own trailing children in their original order,
and x is reinserted immediately after p in the grandparent's list (the
parent's own spot in an arbitrary surrounding tree); the identifier
sequence of the rewritten span is exactly that of the original span, so
no item is orphaned or duplicated; and outdent of a root-level item is a
no-op. -/
theorem C1_outdent (now : Nat) (C : Ctx) (A' : List Bullet)
    (pi2 : Nat) (pt2 : String) (S1 S2 : List Bullet)
    (pc pr : Bool) (pca pua : Option Nat) (B' : List Bullet)
    (xi : Nat) (xt : String) (xcs : List Bullet) (xc xr : Bool) (xca xua : Option Nat)
    (hC : ctxIdFree xi C) (hA : xi ∉ forestIds A') (hB : xi ∉ forestIds B')
    (hS1 : xi ∉ forestIds S1) (hpne : xi ≠ pi2)
    (hxro : xr = false) (hpro : pr = false) :
    (handleOutdent now xi
        (plug C (A' ++ .mk pi2 pt2 (S1 ++ .mk xi xt xcs xc xr xca xua :: S2)
          pc pr pca pua :: B')) =
      plug C (A' ++ .mk pi2 pt2 S1 pc pr pca pua ::
        .mk xi xt (xcs ++ S2) xc xr xca (some now) :: B')) ∧
    (forestIds (A' ++ .mk pi2 pt2 S1 pc pr pca pua ::
        .mk xi xt (xcs ++ S2) xc xr xca (some now) :: B') =
      forestIds (A' ++ .mk pi2 pt2 (S1 ++ .mk xi xt xcs xc xr xca xua :: S2)
        pc pr pca pua :: B')) ∧
    (∀ (y : Bullet) (Ay By : List Bullet), y.id ∉ forestIds Ay →
      y.id ∉ forestIds By → y.id ∉ forestIds y.children → y.isReadOnly = false →
      handleOutdent now y.id (Ay ++ y :: By) = Ay ++ y :: By) := by
  refine ⟨?_, ?_, ?_⟩
  · exact handleOutdent_plug now C A' pi2 pt2 S1 S2 pc pr pca pua B'
      xi xt xcs xc xr xca xua hC hA hB hS1 hpne hxro hpro
  · simp [forestIds_append, forestIds_cons, bulletIds_mk]
  · intro y Ay By h1 h2 h3 h4
    exact handleOutdent_root_noop now Ay y By h1 h2 h3 h4

theorem C1_outdent_witness :
    handleOutdent 9 2
        [Bullet.mk 1 "p" [Bullet.mk 5 "s0" [] false false none none,
          Bullet.mk 2 "x" [Bullet.mk 7 "g" [] false false none none] false false none none,
          Bullet.mk 6 "s2" [] false false none none] false false none none] =
      [Bullet.mk 1 "p" [Bullet.mk 5 "s0" [] false false none none] false false none none,
       Bullet.mk 2 "x" [Bullet.mk 7 "g" [] false false none none,
        Bullet.mk 6 "s2" [] false false none none] false false none (some 9)] :=
  (C1_outdent 9 .here [] 1 "p" [Bullet.mk 5 "s0" [] false false none none]
    [Bullet.mk 6 "s2" [] false false none none] false false none none []
    2 "x" [Bullet.mk 7 "g" [] false false none none] false false none none
    trivial (by decide) (by decide) (by decide) (by decide) rfl rfl).1

/-- C2 counterexample: handleFoldAll carries no read-only guard — called
on a read-only target that has a child, it changes the tree (the target
is collapsed), so "every mutator returns the original tree unchanged on
a read-only target" fails for foldAll. -/
theorem C2_cex :
    handleFoldAll 1 true
        [Bullet.mk 1 "a" [Bullet.mk 2 "b" [] false false none none]
          false true none none] ≠
      [Bullet.mk 1 "a" [Bullet.mk 2 "b" [] false false none none]
        false true none none] := by decide

/-- C2 (amended): the identifier-addressed mutators return the input
unchanged when the target identifier is absent from the forest; every
mutator except handleFoldAll also returns the input unchanged on a
read-only target, as do indent, move, merge and outdent on structurally
meaningless requests (no previous sibling, no neighbour to swap with,
first-in-list with text, root level); handleFoldAll has no read-only
guard.  All operations are total functions of the forest. -/
theorem C2_noop_guards (now freshId : Nat) (text : String) (p : BulletPatch)
    (col : Bool) (dir : MoveDir) (tid : Nat) (bullets : List Bullet)
    (C : Ctx) (A : List Bullet) (x : Bullet) (B : List Bullet)
    (hC : ctxIdFree x.id C) (hA : x.id ∉ forestIds A) :
    (tid ∉ forestIds bullets →
      handleAddSibling now freshId tid text bullets = bullets ∧
      handleDelete now tid bullets = bullets ∧
      handleIndent now tid bullets = bullets ∧
      handleOutdent now tid bullets = bullets ∧
      handleMoveBullet now tid dir bullets = bullets ∧
      handleMerge now tid bullets = (bullets, none) ∧
      handleUpdate now tid p bullets = bullets ∧
      handleFoldAll tid col bullets = bullets) ∧
    (x.isReadOnly = true →
      handleAddSibling now freshId x.id text (plug C (A ++ x :: B)) =
        plug C (A ++ x :: B) ∧
      handleDelete now x.id (plug C (A ++ x :: B)) = plug C (A ++ x :: B) ∧
      handleIndent now x.id (plug C (A ++ x :: B)) = plug C (A ++ x :: B) ∧
      handleOutdent now x.id (plug C (A ++ x :: B)) = plug C (A ++ x :: B) ∧
      handleMoveBullet now x.id dir (plug C (A ++ x :: B)) = plug C (A ++ x :: B) ∧
      handleMerge now x.id (plug C (A ++ x :: B)) = (plug C (A ++ x :: B), none) ∧
      handleUpdate now x.id p (plug C (A ++ x :: B)) = plug C (A ++ x :: B)) ∧
    (x.isReadOnly = false →
      handleIndent now x.id (plug C (x :: B)) = plug C (x :: B) ∧
      handleMoveBullet now x.id .up (plug C (x :: B)) = plug C (x :: B) ∧
      handleMoveBullet now x.id .down (plug C (A ++ [x])) = plug C (A ++ [x]) ∧
      (¬ x.text = "" →
        handleMerge now x.id (plug C (x :: B)) = (plug C (x :: B), none)) ∧
      (x.id ∉ forestIds B → x.id ∉ forestIds x.children →
        handleOutdent now x.id (A ++ x :: B) = A ++ x :: B)) := by
  refine ⟨?_, ?_, ?_⟩
  · intro h
    exact ⟨handleAddSibling_notFound now freshId tid text bullets h,
      handleDelete_notFound now tid bullets h,
      handleIndent_notFound now tid bullets h,
      handleOutdent_notFound now tid bullets h,
      handleMoveBullet_notFound now tid dir bullets h,
      handleMerge_notFound now tid bullets h,
      handleUpdate_notFound now tid p bullets h,
      handleFoldAll_notFound tid col bullets h⟩
  · intro hro
    exact ⟨handleAddSibling_readonly now freshId text C A x B hC hA hro,
      handleDelete_readonly now C A x B hC hA hro,
      handleIndent_readonly now C A x B hC hA hro,
      handleOutdent_readonly now C A x B hC hA hro,
      handleMoveBullet_readonly now dir C A x B hC hA hro,
      handleMerge_readonly now C A x B hC hA hro,
      handleUpdate_readonly now p C A x B hC hA hro⟩
  · intro hro
    exact ⟨handleIndent_first now C x B hC hro,
      handleMoveBullet_up_first now C x B hC hro,
      handleMoveBullet_down_last now C A x hC hA hro,
      fun ht => handleMerge_first_nonempty now C x B hC hro ht,
      fun hB2 hch => handleOutdent_root_noop now A x B hA hB2 hch hro⟩

theorem C2_noop_guards_witness :
    handleDelete 3 99 [Bullet.mk 1 "a" [] false false none none] =
      [Bullet.mk 1 "a" [] false false none none] :=
  ((C2_noop_guards 3 7 "" ⟨none, none⟩ false .up 99
      [Bullet.mk 1 "a" [] false false none none]
      .here [] (Bullet.mk 2 "b" [] false false none none) []
      trivial (by decide)).1 (by decide)).2.1

/-- C3: merge of an item x with a previous sibling p (neither read-only)
appends x's text to p's text, appends x's children to p's children,
unfolds p exactly when x brought children, removes x, and requests focus
on p at the offset given by p's original text length; merge of a
first-in-list item with empty text instead removes the item and moves
focus to the enclosing parent at its end. -/
theorem C3_merge (now : Nat) (C : Ctx) (A : List Bullet)
    (pi2 : Nat) (pt2 : String) (pcs : List Bullet) (pc pr : Bool)
    (pca pua : Option Nat)
    (xi : Nat) (xt : String) (xcs : List Bullet) (xc xr : Bool) (xca xua : Option Nat)
    (B : List Bullet)
    (hC : ctxIdFree xi C) (hA : xi ∉ forestIds A)
    (hp : xi ∉ bulletIds (.mk pi2 pt2 pcs pc pr pca pua))
    (hxro : xr = false) (hpro : pr = false) :
    (handleMerge now xi (plug C (A ++ .mk pi2 pt2 pcs pc pr pca pua ::
        .mk xi xt xcs xc xr xca xua :: B)) =
      (plugP true now C (A ++ .mk pi2 (pt2 ++ xt) (pcs ++ xcs)
          (if xcs.isEmpty then pc else false) pr pca (some now) :: B),
        some (some pi2, .offset pt2.length))) ∧
    (∀ (C2 : Ctx) (yi : Nat) (ycs : List Bullet) (yc yr : Bool)
       (yca yua : Option Nat) (B2 : List Bullet),
      ctxIdFree yi C2 → yr = false →
      handleMerge now yi (plug C2 (.mk yi "" ycs yc yr yca yua :: B2)) =
        (plugP true now C2 B2,
          some ((holeParent C2 (.mk yi "" ycs yc yr yca yua :: B2)).map Bullet.id,
            .atEnd))) := by
  refine ⟨?_, ?_⟩
  · exact handleMerge_plug now C A pi2 pt2 pcs pc pr pca pua
      xi xt xcs xc xr xca xua B hC hA hp hxro hpro
  · intro C2 yi ycs yc yr yca yua B2 hC2 hyro
    exact handleMerge_first_empty_plug now C2 yi ycs yc yr yca yua B2 hC2 hyro

theorem C3_merge_witness :
    handleMerge 7 2
        [Bullet.mk 1 "foo" [] false false none none,
         Bullet.mk 2 "bar" [] false false none none] =
      ([Bullet.mk 1 "foobar" [] false false none (some 7)],
        some (some 1, .offset 3)) :=
  (C3_merge 7 .here [] 1 "foo" [] false false none none
    2 "bar" [] false false none none []
    trivial (by decide) (by decide) rfl rfl).1

/-- C4 counterexample: foldAll on a childless target leaves the target
untouched (the flag is not set on it), and the recursive set does put
the flag on a read-only descendant that has children (while still not
descending into it) — both against the claim's "sets the flag on the
item with that id and on every read-write descendant". -/
theorem C4_cex :
    handleFoldAll 1 true [Bullet.mk 1 "leaf" [] false false none none] =
      [Bullet.mk 1 "leaf" [] false false none none] ∧
    handleFoldAll 1 true
        [Bullet.mk 1 "t"
          [Bullet.mk 2 "ro"
            [Bullet.mk 3 "d" [Bullet.mk 4 "e" [] false false none none]
              false false none none]
            false true none none]
          false false none none] =
      [Bullet.mk 1 "t"
        [Bullet.mk 2 "ro"
          [Bullet.mk 3 "d" [Bullet.mk 4 "e" [] false false none none]
            false false none none]
          true true none none]
        true false none none] := by
  exact ⟨by decide, by decide⟩

/-- C4 (amended): foldAll rewrites only the target's position; at a
target with children it sets the flag on the target and runs the
recursive set on the children, while a childless target is left
untouched; the recursive set puts the flag on every node that has
children — read-only ones included — descends only into read-write
nodes, and leaves childless nodes untouched. -/
theorem C4_foldAll (tid : Nat) (col : Bool) (C : Ctx) (A : List Bullet)
    (x : Bullet) (B : List Bullet) (hC : ctxIdFree tid C)
    (hA : tid ∉ forestIds A) (hB : tid ∉ forestIds B) :
    (handleFoldAll tid col (plug C (A ++ x :: B)) =
      plug C (A ++ fafNode tid col x :: B)) ∧
    (∀ (t : String) (cs : List Bullet) (c r : Bool) (ca ua : Option Nat),
      cs ≠ [] →
      fafNode tid col (.mk tid t cs c r ca ua) =
        .mk tid t (setCollapseRecursively col cs) col r ca ua) ∧
    (∀ (t : String) (c r : Bool) (ca ua : Option Nat),
      fafNode tid col (.mk tid t [] c r ca ua) = .mk tid t [] c r ca ua) ∧
    (∀ (i : Nat) (t : String) (cs : List Bullet) (c : Bool) (ca ua : Option Nat),
      cs ≠ [] →
      scrNode col (.mk i t cs c false ca ua) =
        .mk i t (setCollapseRecursively col cs) col false ca ua) ∧
    (∀ (i : Nat) (t : String) (cs : List Bullet) (c : Bool) (ca ua : Option Nat),
      cs ≠ [] →
      scrNode col (.mk i t cs c true ca ua) = .mk i t cs col true ca ua) ∧
    (∀ (i : Nat) (t : String) (c r : Bool) (ca ua : Option Nat),
      scrNode col (.mk i t [] c r ca ua) = .mk i t [] c r ca ua) := by
  refine ⟨?_, ?_, ?_, ?_, ?_, ?_⟩
  · rw [handleFoldAll]
    exact findAndFold_plug tid col C A x B hC hA hB
  · intro t cs c r ca ua hcs
    rw [fafNode, if_pos rfl,
      if_neg (show ¬ (cs.isEmpty = true) by simp [List.isEmpty_iff, hcs])]
  · intro t c r ca ua
    rw [fafNode, if_pos rfl,
      if_pos (show ([] : List Bullet).isEmpty = true from rfl)]
  · intro i t cs c ca ua hcs
    rw [scrNode,
      if_neg (show ¬ (cs.isEmpty = true) by simp [List.isEmpty_iff, hcs])]
    simp
  · intro i t cs c ca ua hcs
    rw [scrNode,
      if_neg (show ¬ (cs.isEmpty = true) by simp [List.isEmpty_iff, hcs])]
    simp
  · intro i t c r ca ua
    rw [scrNode, if_pos (show ([] : List Bullet).isEmpty = true from rfl)]

theorem C4_foldAll_witness :
    handleFoldAll 1 true
        [Bullet.mk 1 "t" [Bullet.mk 2 "c" [Bullet.mk 3 "g" [] false false none none]
          false false none none] false false none none] =
      [Bullet.mk 1 "t" [Bullet.mk 2 "c" [Bullet.mk 3 "g" [] false false none none]
        true false none none] true false none none] :=
  (C4_foldAll 1 true .here []
    (Bullet.mk 1 "t" [Bullet.mk 2 "c" [Bullet.mk 3 "g" [] false false none none]
      false false none none] false false none none) []
    trivial (by decide) (by decide)).1

/-- C5: quick-find search keeps every item on an empty (all-whitespace)
query; on a non-empty query an item passes the filter exactly when, for
at least one OR-group of the parsed query, the item's lowercased text
contains every AND-term of that group as a substring; the query
"a b OR c" parses into the groups [[a, b], [c]] and matches an item
containing a and b or an item containing c (case-insensitively), but not
an item containing only a. -/
theorem C5_search (query : String) (bullets : List Bullet) :
    ((trimChars query.toList).isEmpty = true →
      filteredBullets query bullets = bullets) ∧
    ((trimChars query.toList).isEmpty = false →
      ∀ b : Bullet, b ∈ filteredBullets query bullets ↔
        b ∈ bullets ∧ ∃ g ∈ searchConditionGroups query,
          ∀ t ∈ g, containsSub t (toLowerChars b.text.toList) = true) ∧
    (searchConditionGroups "a b OR c" = [[['a'], ['b']], [['c']]]) ∧
    (filteredBullets "a b OR c"
        [Bullet.mk 1 "xAyBz" [] false false none none,
         Bullet.mk 2 "C here" [] false false none none,
         Bullet.mk 3 "a alone" [] false false none none] =
      [Bullet.mk 1 "xAyBz" [] false false none none,
       Bullet.mk 2 "C here" [] false false none none]) := by
  refine ⟨?_, ?_, by decide, by decide⟩
  · intro h
    rw [filteredBullets, if_pos h]
  · intro h b
    rw [filteredBullets,
      if_neg (by intro hx; rw [h] at hx; exact Bool.false_ne_true hx)]
    simp [List.mem_filter, searchGroupsMatch, List.any_eq_true, List.all_eq_true]

theorem C5_search_witness :
    (trimChars "   ".toList).isEmpty = true ∧
    filteredBullets "   " [Bullet.mk 1 "z" [] false false none none] =
      [Bullet.mk 1 "z" [] false false none none] :=
  ⟨by decide, (C5_search "   " [Bullet.mk 1 "z" [] false false none none]).1
    (by decide)⟩

/-- C6 counterexample: indent immediately followed by outdent does not
return the original tree, not even up to the allowed force-unfold
difference — the round trip refreshes the moved item's updatedAt (here:
none becomes some 5) while the parent, never collapsed, is restored
exactly. -/
theorem C6_cex :
    handleOutdent 5 2 (handleIndent 5 2
        [Bullet.mk 1 "p" [] false false none none,
         Bullet.mk 2 "x" [] false false none none]) ≠
      [Bullet.mk 1 "p" [] false false none none,
       Bullet.mk 2 "x" [] false false none none] ∧
    handleOutdent 5 2 (handleIndent 5 2
        [Bullet.mk 1 "p" [] false false none none,
         Bullet.mk 2 "x" [] false false none none]) =
      [Bullet.mk 1 "p" [] false false none none,
       Bullet.mk 2 "x" [] false false none (some 5)] := by
  exact ⟨by decide, by decide⟩

/-- C6 (amended): for a non-first, non-read-only item x whose previous
sibling p is read-write, outdent after indent returns the original tree
except that p is force-unfolded and x's updatedAt is refreshed to the
outdent time. -/
theorem C6_indent_outdent (now now2 : Nat) (C : Ctx) (A : List Bullet)
    (pi2 : Nat) (pt2 : String) (pcs : List Bullet) (pc : Bool) (pca pua : Option Nat)
    (xi : Nat) (xt : String) (xcs : List Bullet) (xc xr : Bool) (xca xua : Option Nat)
    (B : List Bullet)
    (hC : ctxIdFree xi C) (hA : xi ∉ forestIds A) (hB : xi ∉ forestIds B)
    (hp : xi ∉ bulletIds (.mk pi2 pt2 pcs pc false pca pua))
    (hxro : xr = false) :
    handleOutdent now2 xi (handleIndent now xi
        (plug C (A ++ .mk pi2 pt2 pcs pc false pca pua ::
          .mk xi xt xcs xc xr xca xua :: B))) =
      plug C (A ++ .mk pi2 pt2 pcs false false pca pua ::
        .mk xi xt xcs xc xr xca (some now2) :: B) := by
  have hind := handleIndent_plug now C A pi2 pt2 pcs pc false pca pua
    (Bullet.mk xi xt xcs xc xr xca xua) B hC hA hp hxro rfl
  simp only [Bullet.id_mk] at hind
  rw [hind]
  subst hxro
  have hout := handleOutdent_plug now2 C A pi2 pt2 pcs []
    false false pca pua B xi xt xcs xc false xca (some now)
    hC hA hB (children_ids_of_not_mem_bulletIds hp)
    (fun he => id_ne_of_not_mem_bulletIds hp (by simpa using he.symm))
    rfl rfl
  simp only [List.append_nil] at hout
  have htouch : touchNode true now (Bullet.mk xi xt xcs xc false xca xua) =
      Bullet.mk xi xt xcs xc false xca (some now) := rfl
  rw [htouch]
  exact hout

theorem C6_indent_outdent_witness :
    handleOutdent 9 2 (handleIndent 5 2
        [Bullet.mk 1 "p" [Bullet.mk 3 "q" [] false false none none]
          true false none none,
         Bullet.mk 2 "x" [Bullet.mk 4 "g" [] false false none none]
          false false none none]) =
      [Bullet.mk 1 "p" [Bullet.mk 3 "q" [] false false none none]
        false false none none,
       Bullet.mk 2 "x" [Bullet.mk 4 "g" [] false false none none]
        false false none (some 9)] :=
  C6_indent_outdent 5 9 .here [] 1 "p" [Bullet.mk 3 "q" [] false false none none]
    true none none 2 "x" [Bullet.mk 4 "g" [] false false none none]
    false false none none []
    trivial (by decide) (by decide) (by decide) rfl

/-- C7: when focus leaves an existing, read-write, empty and childless
item, that item is spliced out and the recents index is told to forget
it; running the effect again after the removal (the caller stores the
new previous focus) is a no-op, so the removal happens exactly once; and
an item with non-empty text or with children is never auto-removed. -/
theorem C7_prune (C : Ctx) (A : List Bullet) (pid : Nat) (xc xr : Bool)
    (xca xua : Option Nat) (B : List Bullet) (currentId next2 : Option Nat)
    (hC : ctxIdFree pid C) (hA : pid ∉ forestIds A) (hB : pid ∉ forestIds B)
    (hxro : xr = false) (hcur : currentId ≠ some pid) :
    (pruneOnFocusChange (some pid) currentId
        (plug C (A ++ .mk pid "" [] xc xr xca xua :: B)) =
      (plug C (A ++ B), some pid)) ∧
    (pruneOnFocusChange (some pid) next2 (plug C (A ++ B)) =
      (plug C (A ++ B), none)) ∧
    (∀ (y : Bullet) (Ay By : List Bullet) (Cy : Ctx) (cur : Option Nat),
      ctxIdFree y.id Cy → y.id ∉ forestIds Ay → cur ≠ some y.id →
      (¬ y.text = "" ∨ ¬ y.children = []) →
      pruneOnFocusChange (some y.id) cur (plug Cy (Ay ++ y :: By)) =
        (plug Cy (Ay ++ y :: By), none)) := by
  refine ⟨?_, ?_, ?_⟩
  · exact pruneOnFocusChange_plug C A pid xc xr xca xua B currentId hC hA hxro hcur
  · exact pruneOnFocusChange_notFound pid next2 (plug C (A ++ B))
      (forestIds_plug_free pid C (A ++ B) hC (not_mem_forestIds_append hA hB))
  · intro y Ay By Cy cur h1 h2 h3 h4
    exact pruneOnFocusChange_keep Cy Ay y By cur h1 h2 h3 h4

theorem C7_prune_witness :
    pruneOnFocusChange (some 2) (some 1)
        [Bullet.mk 1 "keep" [] false false none none,
         Bullet.mk 2 "" [] false false none none] =
      ([Bullet.mk 1 "keep" [] false false none none], some 2) :=
  (C7_prune .here [Bullet.mk 1 "keep" [] false false none none] 2 false false
    none none [] (some 1) none
    trivial (by decide) (by decide) rfl (by decide)).1

/-- C8: zooming into a read-write leaf creates exactly one fresh, empty,
expanded, read-write child under it (both its timestamps set to the
creation time), force-unfolds the leaf, sets the zoom target to the
leaf, and focuses the new child; the zoomed view then displays exactly
the singleton list holding that new child, so the zoomed list is never
empty. -/
theorem C8_zoom_leaf (freshId now : Nat) (C : Ctx) (A : List Bullet)
    (xi : Nat) (xt : String) (xc xr : Bool) (xca xua : Option Nat)
    (B : List Bullet) (oldZoomedId : Option Nat)
    (hC : ctxIdFree xi C) (hA : xi ∉ forestIds A) (hxro : xr = false) :
    (handleZoom freshId now (some xi)
        (plug C (A ++ .mk xi xt [] xc xr xca xua :: B)) oldZoomedId =
      ⟨plug C (A ++ .mk xi xt [createNewBullet freshId now ""] false xr xca xua :: B),
        some xi, some freshId⟩) ∧
    (createNewBullet freshId now "" =
      .mk freshId "" [] false false (some now) (some now)) ∧
    (displayedBullets (some xi)
        (plug C (A ++ .mk xi xt [createNewBullet freshId now ""] false xr xca xua
          :: B)) =
      [createNewBullet freshId now ""]) := by
  refine ⟨?_, rfl, ?_⟩
  · exact handleZoom_leaf_plug freshId now C A xi xt xc xr xca xua B oldZoomedId
      hC hA hxro
  · rw [displayedBullets, findBulletL_plug xi C A
      (Bullet.mk xi xt [createNewBullet freshId now ""] false xr xca xua) B rfl hC hA]
    rfl

theorem C8_zoom_leaf_witness :
    handleZoom 7 3 (some 1)
        [Bullet.mk 1 "leaf" [] true false none none] none =
      ⟨[Bullet.mk 1 "leaf" [Bullet.mk 7 "" [] false false (some 3) (some 3)]
          false false none none], some 1, some 7⟩ :=
  (C8_zoom_leaf 7 3 .here [] 1 "leaf" true false none none [] none
    trivial (by decide) rfl).1

/-- C9 counterexample: the timestamp backfill runs through a JS
falsy-or, so an existing stored createdAt of 0 is not preserved — when
an item carrying createdAt 0 and updatedAt 3 is imported at load time 5, it
comes out with createdAt 5 (the id is regenerated from the supply as
claimed). -/
theorem C9_cex :
    handleConfirmImport 5 10
        [Bullet.mk 1 "a" [] false false (some 0) (some 3)] none [] =
      [Bullet.mk 10 "a" [] false false (some 5) (some 3)] := by decide

/-- C9 (amended): on confirming an import, every node of the payload
(nested ones included) receives a fresh identifier — the supply values
in pre-order, pairwise distinct, and none of the payload's identifiers
survives when the supply is fresh; the migration step recurses through
the children and backfills createdAt and updatedAt through a JS
falsy-or, so a missing timestamp becomes the load time, a non-zero
stored value is preserved, and a stored 0 is replaced by the load time;
the regenerated forest is appended at the root for no target, or as
trailing children of the chosen target item (which is force-unfolded). -/
theorem C9_import (now s : Nat) (payload : List Bullet) (bullets : List Bullet) :
    (forestIds (regenerateIds s (migrateBullets now payload)) =
      List.range' s (forestNodes payload).length) ∧
    ((forestIds (regenerateIds s (migrateBullets now payload))).Nodup) ∧
    ((∀ j ∈ forestIds payload, j < s) →
      ∀ j ∈ forestIds (regenerateIds s (migrateBullets now payload)),
        j ∉ forestIds payload) ∧
    (∀ (i : Nat) (t : String) (cs : List Bullet) (c r : Bool) (ca ua : Option Nat),
      migrateBullet now (.mk i t cs c r ca ua) =
        .mk i t (migrateBullets now cs) c r (some (orFalsy ca now))
          (some (orFalsy ua now))) ∧
    (orFalsy none now = now ∧ orFalsy (some 0) now = now ∧
      ∀ v : Nat, v ≠ 0 → orFalsy (some v) now = v) ∧
    (handleConfirmImport now s payload none bullets =
      bullets ++ regenerateIds s (migrateBullets now payload)) ∧
    (∀ (C : Ctx) (A : List Bullet) (ti : Nat) (tt : String) (tcs : List Bullet)
       (tc tr : Bool) (tca tua : Option Nat) (B : List Bullet),
      ctxIdFree ti C → ti ∉ forestIds A → ti ∉ forestIds B →
      handleConfirmImport now s payload (some ti)
          (plug C (A ++ .mk ti tt tcs tc tr tca tua :: B)) =
        plug C (A ++ .mk ti tt
          (tcs ++ regenerateIds s (migrateBullets now payload))
          false tr tca tua :: B)) := by
  have hids : forestIds (regenerateIds s (migrateBullets now payload)) =
      List.range' s (forestNodes payload).length := by
    rw [regenerateIds_ids s (migrateBullets now payload),
      forestNodes_length_eq_of_ids (migrateBullets_ids now payload)]
  refine ⟨hids, ?_, ?_, ?_, ?_, ?_, ?_⟩
  · rw [hids]
    exact List.nodup_range' s (forestNodes payload).length
  · intro hfresh j hj hmem
    rw [hids] at hj
    have := (List.mem_range'_1.mp hj).1
    exact absurd (hfresh j hmem) (by omega)
  · intro i t cs c r ca ua
    rw [migrateBullet]
  · exact ⟨rfl, rfl, fun v hv => by simp [orFalsy, hv]⟩
  · rw [handleConfirmImport]
  · intro C A ti tt tcs tc tr tca tua B hC hA hB
    rw [handleConfirmImport]
    have := addToTarget_plug (regenerateIds s (migrateBullets now payload)) ti C A
      (Bullet.mk ti tt tcs tc tr tca tua) B hC hA hB
    rw [this, addToTargetNode, if_pos rfl]

theorem C9_import_witness :
    handleConfirmImport 5 10
        [Bullet.mk 1 "a" [Bullet.mk 1 "dup" [] false false none (some 4)]
          false false none none] none
        [Bullet.mk 3 "root" [] false false none none] =
      [Bullet.mk 3 "root" [] false false none none,
       Bullet.mk 10 "a" [Bullet.mk 11 "dup" [] false false (some 5) (some 4)]
        false false (some 5) (some 5)] := by
  have h := (C9_import 5 10
    [Bullet.mk 1 "a" [Bullet.mk 1 "dup" [] false false none (some 4)]
      false false none none]
    [Bullet.mk 3 "root" [] false false none none]).2.2.2.2.2.1
  rw [h]
  decide
